import Mathlib

/-!
Verification of the 4-dimensional noughts-and-crosses plane enumerator
(`main.py`).  The program enumerates all 9-element, index-sorted, coplanar
subsets of the 81 lattice points of `{-1,0,1}^4` by a pruned backtracking
search.

Shallow embedding conventions:
* Points and difference vectors are vectors of four integer components
  (`Vec4 ℤ`), as in the source, which keeps integer numpy arrays throughout
  the lattice and the fast filter.
* The exact coplanarity check switches to rational vectors (`Vec4 ℚ`)
  exactly where the source's numpy arithmetic switches to floating point:
  at the true divisions `np.dot(...)/np.dot(...)`.  Every division there is
  by a dot product of integer-component vectors bounded by 2 in absolute
  value, so a nonzero exact residual component has absolute value at least
  `1/65536`, far above the `np.allclose` tolerance (`atol = 1e-8`), while a
  zero exact residual is computed by floats to well within it; the floating
  computation decides exactly the rational predicate, and
  `np.allclose(v, 0)` is modelled as `v = 0` over `ℚ`.
* Python list indexing `all_points[i]` is total for the index ranges the
  search produces (`0 ≤ i ≤ 80`); it is modelled by `pointAt` (with an
  irrelevant default out of range).  The raw Python semantics of
  `all_points[i]` for an arbitrary integer `i` — negative wrap-around,
  `IndexError` out of range — is modelled separately by `pythonGet`.
* The generator `find_planes` is modelled as a function returning the list
  of produced results in production order, paired with the list of
  characters the call prints on stdout (the progress dot `print('.')` of
  the source).  The source yields the point list `[all_points[i] for i in
  base]`; a produced plane is represented here by the index list `base`
  itself, which determines it (`List.map pointAt`).
-/

/-- Vector of four components: a lattice point or a difference of lattice
points (over `ℤ`, as the source's integer numpy arrays), or an intermediate
vector of the exact check (over `ℚ`, standing for the source's floats). -/
@[ext]
structure Vec4 (α : Type) where
  x : α
  y : α
  z : α
  w : α
deriving DecidableEq

namespace Vec4

variable {α : Type}

instance [Zero α] : Zero (Vec4 α) := ⟨⟨0, 0, 0, 0⟩⟩
instance [Add α] : Add (Vec4 α) :=
  ⟨fun u v => ⟨u.x + v.x, u.y + v.y, u.z + v.z, u.w + v.w⟩⟩
instance [Sub α] : Sub (Vec4 α) :=
  ⟨fun u v => ⟨u.x - v.x, u.y - v.y, u.z - v.z, u.w - v.w⟩⟩
instance [Neg α] : Neg (Vec4 α) := ⟨fun u => ⟨-u.x, -u.y, -u.z, -u.w⟩⟩
instance [Mul α] : SMul α (Vec4 α) :=
  ⟨fun a u => ⟨a * u.x, a * u.y, a * u.z, a * u.w⟩⟩

@[simp] theorem zero_x [Zero α] : (0 : Vec4 α).x = 0 := rfl
@[simp] theorem zero_y [Zero α] : (0 : Vec4 α).y = 0 := rfl
@[simp] theorem zero_z [Zero α] : (0 : Vec4 α).z = 0 := rfl
@[simp] theorem zero_w [Zero α] : (0 : Vec4 α).w = 0 := rfl
@[simp] theorem add_x [Add α] (u v : Vec4 α) : (u + v).x = u.x + v.x := rfl
@[simp] theorem add_y [Add α] (u v : Vec4 α) : (u + v).y = u.y + v.y := rfl
@[simp] theorem add_z [Add α] (u v : Vec4 α) : (u + v).z = u.z + v.z := rfl
@[simp] theorem add_w [Add α] (u v : Vec4 α) : (u + v).w = u.w + v.w := rfl
@[simp] theorem sub_x [Sub α] (u v : Vec4 α) : (u - v).x = u.x - v.x := rfl
@[simp] theorem sub_y [Sub α] (u v : Vec4 α) : (u - v).y = u.y - v.y := rfl
@[simp] theorem sub_z [Sub α] (u v : Vec4 α) : (u - v).z = u.z - v.z := rfl
@[simp] theorem sub_w [Sub α] (u v : Vec4 α) : (u - v).w = u.w - v.w := rfl
@[simp] theorem neg_x [Neg α] (u : Vec4 α) : (-u).x = -u.x := rfl
@[simp] theorem neg_y [Neg α] (u : Vec4 α) : (-u).y = -u.y := rfl
@[simp] theorem neg_z [Neg α] (u : Vec4 α) : (-u).z = -u.z := rfl
@[simp] theorem neg_w [Neg α] (u : Vec4 α) : (-u).w = -u.w := rfl
@[simp] theorem smul_x [Mul α] (a : α) (u : Vec4 α) : (a • u).x = a * u.x := rfl
@[simp] theorem smul_y [Mul α] (a : α) (u : Vec4 α) : (a • u).y = a * u.y := rfl
@[simp] theorem smul_z [Mul α] (a : α) (u : Vec4 α) : (a • u).z = a * u.z := rfl
@[simp] theorem smul_w [Mul α] (a : α) (u : Vec4 α) : (a • u).w = a * u.w := rfl

/-- Dot product of two vectors, `np.dot` of the source. -/
def dot [Mul α] [Add α] (u v : Vec4 α) : α :=
  u.x * v.x + u.y * v.y + u.z * v.z + u.w * v.w

theorem dot_comm [CommRing α] (u v : Vec4 α) : dot u v = dot v u := by
  simp only [dot]; ring

theorem dot_sub_right [CommRing α] (u v w' : Vec4 α) :
    dot u (v - w') = dot u v - dot u w' := by
  simp only [dot, sub_x, sub_y, sub_z, sub_w]; ring

theorem dot_add_right [CommRing α] (u v w' : Vec4 α) :
    dot u (v + w') = dot u v + dot u w' := by
  simp only [dot, add_x, add_y, add_z, add_w]; ring

theorem dot_smul_right [CommRing α] (u : Vec4 α) (a : α) (v : Vec4 α) :
    dot u (a • v) = a * dot u v := by
  simp only [dot, smul_x, smul_y, smul_z, smul_w]; ring

theorem dot_self_nonneg [LinearOrderedCommRing α] (u : Vec4 α) : 0 ≤ dot u u := by
  simp only [dot]
  nlinarith [mul_self_nonneg u.x, mul_self_nonneg u.y, mul_self_nonneg u.z,
    mul_self_nonneg u.w]

theorem dot_self_eq_zero_iff [LinearOrderedCommRing α] (u : Vec4 α) :
    dot u u = 0 ↔ u = 0 := by
  constructor
  · intro h
    simp only [dot] at h
    have hx : u.x = 0 := by
      nlinarith [mul_self_nonneg u.x, mul_self_nonneg u.y, mul_self_nonneg u.z,
        mul_self_nonneg u.w]
    have hy : u.y = 0 := by
      nlinarith [mul_self_nonneg u.x, mul_self_nonneg u.y, mul_self_nonneg u.z,
        mul_self_nonneg u.w]
    have hz : u.z = 0 := by
      nlinarith [mul_self_nonneg u.x, mul_self_nonneg u.y, mul_self_nonneg u.z,
        mul_self_nonneg u.w]
    have hw : u.w = 0 := by
      nlinarith [mul_self_nonneg u.x, mul_self_nonneg u.y, mul_self_nonneg u.z,
        mul_self_nonneg u.w]
    ext <;> simp [hx, hy, hz, hw]
  · intro h; subst h; simp [dot]

theorem dot_self_pos [LinearOrderedCommRing α] {u : Vec4 α} (h : u ≠ 0) :
    0 < dot u u := by
  rcases lt_or_eq_of_le (dot_self_nonneg u) with h' | h'
  · exact h'
  · exact absurd ((dot_self_eq_zero_iff u).mp h'.symm) h

end Vec4

open Vec4 (dot)

/-- Cast of an integer vector to a rational vector; it models the implicit
int-to-float conversion performed by numpy's true division in the source's
exact check. -/
def toQ (u : Vec4 ℤ) : Vec4 ℚ := ⟨(u.x : ℚ), (u.y : ℚ), (u.z : ℚ), (u.w : ℚ)⟩

@[simp] theorem toQ_x (u : Vec4 ℤ) : (toQ u).x = (u.x : ℚ) := rfl
@[simp] theorem toQ_y (u : Vec4 ℤ) : (toQ u).y = (u.y : ℚ) := rfl
@[simp] theorem toQ_z (u : Vec4 ℤ) : (toQ u).z = (u.z : ℚ) := rfl
@[simp] theorem toQ_w (u : Vec4 ℤ) : (toQ u).w = (u.w : ℚ) := rfl

theorem toQ_injective : Function.Injective toQ := by
  intro u v h
  have hx := congrArg Vec4.x h
  have hy := congrArg Vec4.y h
  have hz := congrArg Vec4.z h
  have hw := congrArg Vec4.w h
  simp only [toQ_x, toQ_y, toQ_z, toQ_w, Int.cast_inj] at hx hy hz hw
  ext <;> assumption

@[simp] theorem toQ_sub (u v : Vec4 ℤ) : toQ (u - v) = toQ u - toQ v := by
  ext <;> simp [toQ]

@[simp] theorem toQ_neg (u : Vec4 ℤ) : toQ (-u) = -toQ u := by
  ext <;> simp [toQ]

@[simp] theorem toQ_zero : toQ 0 = 0 := by
  ext <;> simp [toQ]

theorem toQ_dot (u v : Vec4 ℤ) : ((dot u v : ℤ) : ℚ) = dot (toQ u) (toQ v) := by
  simp [dot, toQ]

/-- Strict lexicographic order on `Vec4`, component `x` most significant.
It is the order in which `all_points` is generated, and (being
translation-invariant) drives all sortedness arguments about candidates. -/
def lexLt {α : Type} [LT α] (u v : Vec4 α) : Prop :=
  u.x < v.x ∨ (u.x = v.x ∧ (u.y < v.y ∨ (u.y = v.y ∧
    (u.z < v.z ∨ (u.z = v.z ∧ u.w < v.w)))))

instance {α : Type} [LinearOrder α] (u v : Vec4 α) : Decidable (lexLt u v) :=
  inferInstanceAs (Decidable (u.x < v.x ∨ (u.x = v.x ∧ (u.y < v.y ∨ (u.y = v.y ∧
    (u.z < v.z ∨ (u.z = v.z ∧ u.w < v.w)))))))

/-- All 81 points of the lattice `{-1,0,1}^4`, in the order the source's
list comprehension generates them: `w` varies fastest, `x` slowest, each
over `-1, 0, 1` — that is, lexicographic order of `(x, y, z, w)`. -/
def all_points : List (Vec4 ℤ) :=
  ([-1, 0, 1] : List ℤ).flatMap fun x =>
    ([-1, 0, 1] : List ℤ).flatMap fun y =>
      ([-1, 0, 1] : List ℤ).flatMap fun z =>
        ([-1, 0, 1] : List ℤ).map fun w => ⟨x, y, z, w⟩

/-- Point of the lattice at a given index: `all_points[i]` of the source for
the in-range indices `0 ≤ i ≤ 80` the search produces (the out-of-range
default is irrelevant: raw Python indexing is modelled by `pythonGet`). -/
def pointAt (i : ℕ) : Vec4 ℤ := all_points.getD i 0

/-- Python list indexing `l[i]` for an arbitrary integer index: a negative
index wraps around once (`l[i]` is `l[len l + i]` for `-len l ≤ i < 0`),
anything else out of `[-len l, len l)` raises `IndexError` (`none`). -/
def pythonGet (l : List (Vec4 ℤ)) (i : ℤ) : Option (Vec4 ℤ) :=
  let j : ℤ := if i < 0 then i + l.length else i
  if 0 ≤ j ∧ j < l.length then l.get? j.toNat else none

/-- Difference vectors between consecutive entries of a point list:
`pts[i] - pts[i-1]` for `i = 1, …, len pts - 1`, in order. -/
def consecDiffs (pts : List (Vec4 ℤ)) : List (Vec4 ℤ) :=
  List.zipWith (· - ·) pts.tail pts

/-- FastFilter of the source (`is_solution_subseq_fast`): the set of
distinct difference vectors between consecutive points of the candidate has
at most 2 elements.  The Python `set(...)` cardinality is the length of the
deduplicated difference list. -/
def is_solution_subseq_fast (pt_idxs : List ℕ) : Bool :=
  let pts := pt_idxs.map pointAt
  decide ((consecDiffs pts).dedup.length ≤ 2)

/-- Scan of the source's second-basis loop: the first relative vector that
is none of `-basis1`, `-2*basis1`, `2*basis1` (still integer arithmetic in
the source). -/
def findBasis2 (basis1 : Vec4 ℤ) (rest : List (Vec4 ℤ)) : Option (Vec4 ℤ) :=
  rest.find? fun p =>
    decide (p ≠ -basis1 ∧ p ≠ (-2 : ℤ) • basis1 ∧ p ≠ (2 : ℤ) • basis1)

/-- Gram–Schmidt step of the source over the rationals: remove from `p` its
component along `b`.  In the source this is the floating expression
`p - np.dot(b, p)/np.dot(b, b)*b`. -/
def orthAgainst (b p : Vec4 ℚ) : Vec4 ℚ := p - (dot b p / dot b b) • b

/-- ExactCoplanarityCheck of the source (`is_solution_subseq`): translate by
the first point, pick `basis1` and a second independent candidate `basis2`
(integer arithmetic), orthogonalise (rational arithmetic, standing for the
source's floats), and require every relative vector to reduce to zero.  The
source branches on `len(pt_idxs) == 0` and `len(pts) < 2` (the list of
translated points with the origin removed); matching on the index list
directly realises exactly the same three trivial cases. -/
def is_solution_subseq (pt_idxs : List ℕ) : Bool :=
  match pt_idxs with
  | [] => true
  | [_] => true
  | [_, _] => true
  | i0 :: i1 :: i2 :: irest =>
    let origin := pointAt i0
    let basis1 := pointAt i1 - origin
    let rest := (i2 :: irest).map fun i => pointAt i - origin
    match findBasis2 basis1 rest with
    | none => true
    | some b2 =>
      let basis2 := orthAgainst (toQ basis1) (toQ b2)
      (basis1 :: rest).all fun p =>
        decide (orthAgainst basis2 (orthAgainst (toQ basis1) (toQ p)) = 0)

/-- Enumerator of the source (`find_planes`): depth-first backtracking over
strictly increasing indices, pruning with the fast filter at every inner
node and applying the exact check at full depth.  The first component is
the list of produced planes (index lists, in production order), the second
the characters printed on stdout (one `'.'` per accepted plane). -/
def find_planes : ℕ → List ℕ → ℕ → List (List ℕ) × List Char
  | _, base, 0 =>
    if is_solution_subseq base then ([base], ['.']) else ([], [])
  | start_idx, base, r + 1 =>
    if is_solution_subseq_fast base then
      let children :=
        (List.range' start_idx
            ((all_points.length - (r + 1 : ℕ) + 1 - start_idx : ℤ)).toNat).map
          fun i => find_planes (i + 1) (base ++ [i]) r
      ((children.map Prod.fst).flatten, (children.map Prod.snd).flatten)
    else ([], [])

/-! ### Basic facts about the point lattice, established by computation -/

theorem all_points_length : all_points.length = 81 := by decide

theorem all_points_pairwise : all_points.Pairwise lexLt := by decide

theorem all_points_nodup : all_points.Nodup := by decide

theorem all_points_bounds :
    ∀ p ∈ all_points, -1 ≤ p.x ∧ p.x ≤ 1 ∧ -1 ≤ p.y ∧ p.y ≤ 1 ∧
      -1 ≤ p.z ∧ p.z ≤ 1 ∧ -1 ≤ p.w ∧ p.w ≤ 1 := by decide

theorem pointAt_eq_getElem {i : ℕ} (h : i < 81) :
    pointAt i = all_points.get ⟨i, by rw [all_points_length]; exact h⟩ := by
  unfold pointAt
  rw [List.get_eq_getElem]
  exact List.getD_eq_getElem all_points 0 (by rw [all_points_length]; exact h)

theorem pointAt_mem {i : ℕ} (h : i < 81) : pointAt i ∈ all_points := by
  rw [pointAt_eq_getElem h, List.get_eq_getElem]; exact List.getElem_mem _

theorem pointAt_bounds {i : ℕ} (h : i < 81) :
    -1 ≤ (pointAt i).x ∧ (pointAt i).x ≤ 1 ∧ -1 ≤ (pointAt i).y ∧
      (pointAt i).y ≤ 1 ∧ -1 ≤ (pointAt i).z ∧ (pointAt i).z ≤ 1 ∧
      -1 ≤ (pointAt i).w ∧ (pointAt i).w ≤ 1 :=
  all_points_bounds _ (pointAt_mem h)

theorem pointAt_lexLt {i j : ℕ} (hij : i < j) (hj : j < 81) :
    lexLt (pointAt i) (pointAt j) := by
  rw [pointAt_eq_getElem (lt_trans hij hj), pointAt_eq_getElem hj]
  simp only [List.get_eq_getElem]
  exact List.pairwise_iff_getElem.mp all_points_pairwise i j _ _ hij

/-! ### Order lemmas for the lexicographic order on integer vectors -/

theorem lexLt_irrefl (u : Vec4 ℤ) : ¬lexLt u u := by
  unfold lexLt; omega

theorem lexLt_trans {u v t : Vec4 ℤ} (h1 : lexLt u v) (h2 : lexLt v t) :
    lexLt u t := by
  unfold lexLt at *; omega

theorem lexLt_asymm {u v : Vec4 ℤ} (h : lexLt u v) : ¬lexLt v u := by
  unfold lexLt at *; omega

theorem lexLt_ne {u v : Vec4 ℤ} (h : lexLt u v) : u ≠ v := by
  intro he; exact lexLt_irrefl v (he ▸ h)

theorem lexLt_trichotomy (u v : Vec4 ℤ) : lexLt u v ∨ u = v ∨ lexLt v u := by
  simp only [Vec4.ext_iff]; unfold lexLt; omega

theorem lexLt_sub_iff {u v t : Vec4 ℤ} : lexLt (u - t) (v - t) ↔ lexLt u v := by
  unfold lexLt
  simp only [Vec4.sub_x, Vec4.sub_y, Vec4.sub_z, Vec4.sub_w]; omega

theorem lexLt_zero_sub_iff {u v : Vec4 ℤ} : lexLt 0 (v - u) ↔ lexLt u v := by
  unfold lexLt
  simp only [Vec4.sub_x, Vec4.sub_y, Vec4.sub_z, Vec4.sub_w,
    Vec4.zero_x, Vec4.zero_y, Vec4.zero_z, Vec4.zero_w]
  omega

/-- Antisymmetry instance, so that `List.eq_of_perm_of_sorted` applies to
`lexLt`-sorted lists. -/
instance : IsAntisymm (Vec4 ℤ) lexLt :=
  ⟨fun _ _ h h' => absurd h' (lexLt_asymm h)⟩

theorem smul_eq_zero_vec {m : ℤ} {v : Vec4 ℤ} (h : m • v = 0) (hm : m ≠ 0) :
    v = 0 := by
  rw [Vec4.ext_iff] at h ⊢
  simp only [Vec4.smul_x, Vec4.smul_y, Vec4.smul_z, Vec4.smul_w,
    Vec4.zero_x, Vec4.zero_y, Vec4.zero_z, Vec4.zero_w] at h ⊢
  exact ⟨by rcases mul_eq_zero.mp h.1 with h' | h' <;> tauto,
    by rcases mul_eq_zero.mp h.2.1 with h' | h' <;> tauto,
    by rcases mul_eq_zero.mp h.2.2.1 with h' | h' <;> tauto,
    by rcases mul_eq_zero.mp h.2.2.2 with h' | h' <;> tauto⟩

/-! ### Properties of the fast filter -/

theorem consecDiffs_cons_cons (a b : Vec4 ℤ) (l : List (Vec4 ℤ)) :
    consecDiffs (a :: b :: l) = (b - a) :: consecDiffs (b :: l) := rfl

theorem consecDiffs_length (l : List (Vec4 ℤ)) :
    (consecDiffs l).length = l.length - 1 := by
  simp [consecDiffs]

theorem consecDiffs_take (l : List (Vec4 ℤ)) (m : ℕ) :
    consecDiffs (l.take m) = (consecDiffs l).take (m - 1) := by
  induction l generalizing m with
  | nil => simp [consecDiffs]
  | cons a l ih =>
    match m with
    | 0 => simp [consecDiffs]
    | 1 =>
      match l with
      | [] => simp [consecDiffs]
      | b :: l'' => simp [consecDiffs]
    | m'' + 2 =>
      match l with
      | [] => simp [consecDiffs]
      | b :: l'' =>
        have h1 : consecDiffs ((a :: b :: l'').take (m'' + 2)) =
            (b - a) :: consecDiffs ((b :: l'').take (m'' + 1)) := rfl
        rw [h1, ih (m'' + 1)]
        rfl

/-- The fast filter in its specification form: the set of distinct
consecutive difference vectors has at most two elements. -/
theorem is_solution_subseq_fast_iff (pt_idxs : List ℕ) :
    is_solution_subseq_fast pt_idxs = true ↔
      (consecDiffs (pt_idxs.map pointAt)).toFinset.card ≤ 2 := by
  simp [is_solution_subseq_fast, List.card_toFinset]

/-- Prefix monotonicity of the fast filter: a prefix of a passing candidate
passes. -/
theorem is_solution_subseq_fast_take {c : List ℕ} (m : ℕ)
    (h : is_solution_subseq_fast c = true) :
    is_solution_subseq_fast (c.take m) = true := by
  rw [is_solution_subseq_fast_iff] at h ⊢
  rw [List.map_take, consecDiffs_take]
  refine le_trans (Finset.card_le_card ?_) h
  intro v hv
  rw [List.mem_toFinset] at hv ⊢
  exact List.take_subset _ _ hv

/-- Monotone pruning soundness: once the fast filter fails, it fails on
every single-index extension. -/
theorem is_solution_subseq_fast_extend_false {c : List ℕ} (i : ℕ)
    (h : is_solution_subseq_fast c = false) :
    is_solution_subseq_fast (c ++ [i]) = false := by
  by_contra hne
  have htrue : is_solution_subseq_fast (c ++ [i]) = true := by
    cases hb : is_solution_subseq_fast (c ++ [i])
    · exact absurd hb hne
    · rfl
  have := is_solution_subseq_fast_take c.length htrue
  rw [List.take_left] at this
  rw [this] at h
  exact Bool.true_eq_false.mp h

/-- Candidates of length at most 3 always pass the fast filter: they have
at most 2 consecutive differences. -/
theorem is_solution_subseq_fast_short {c : List ℕ} (h : c.length ≤ 3) :
    is_solution_subseq_fast c = true := by
  rw [is_solution_subseq_fast_iff]
  calc (consecDiffs (c.map pointAt)).toFinset.card
      ≤ (consecDiffs (c.map pointAt)).length := List.toFinset_card_le _
    _ = (c.map pointAt).length - 1 := consecDiffs_length _
    _ ≤ 2 := by simp; omega

/-! ### Characterisation of the backtracking enumerator -/

theorem lex_ne_of_lex {l1 l2 : List ℕ} (h : List.Lex (· < ·) l1 l2) : l1 ≠ l2 := by
  induction h with
  | nil => intro he; cases he
  | @rel a l1' b l2' hab =>
    intro he
    injection he with h1 _
    omega
  | @cons a l1' l2' _ ih =>
    intro he
    injection he with _ h2
    exact ih h2

theorem lex_append_cons {base : List ℕ} {i j : ℕ} (hij : i < j)
    (t1 t2 : List ℕ) :
    List.Lex (· < ·) (base ++ i :: t1) (base ++ j :: t2) := by
  induction base with
  | nil => exact List.Lex.rel hij
  | cons a base ih => exact List.Lex.cons ih

theorem sorted_head_bound :
    ∀ {j : ℕ} {t : List ℕ}, List.Sorted (· < ·) (j :: t) →
      (∀ x ∈ j :: t, x < 81) → j + t.length < 81 := by
  intro j t
  induction t generalizing j with
  | nil =>
    intro _ hb
    simpa using hb j (by simp)
  | cons b t' ih =>
    intro hs hb
    have hs0 := List.sorted_cons.mp hs
    have hjb : j < b := hs0.1 b (by simp)
    have h2 := ih hs0.2 (fun x hx => hb x (by simp only [List.mem_cons] at hx ⊢; tauto))
    simp only [List.length_cons]
    omega

theorem find_planes_count (start r : ℕ) :
    ((all_points.length - (r + 1 : ℕ) + 1 - start : ℤ)).toNat = 81 - r - start := by
  rw [all_points_length]
  push_cast
  omega

/-- Every result of a `find_planes` call extends the base by a sorted run of
fresh in-range indices and passes the exact check. -/
theorem find_planes_sound :
    ∀ (r start : ℕ) (base l : List ℕ), l ∈ (find_planes start base r).1 →
      ∃ t, l = base ++ t ∧ t.length = r ∧ (∀ j ∈ t, start ≤ j ∧ j < 81) ∧
        List.Sorted (· < ·) t ∧ is_solution_subseq l = true := by
  intro r
  induction r with
  | zero =>
    intro start base l hl
    simp only [find_planes] at hl
    split at hl
    case isTrue h =>
      simp only [List.mem_singleton] at hl
      subst hl
      exact ⟨[], by simp, rfl, by simp, by simp, h⟩
    case isFalse h => simp at hl
  | succ r ih =>
    intro start base l hl
    simp only [find_planes] at hl
    split at hl
    case isTrue hfast =>
      simp only [List.map_map, List.mem_flatten, List.mem_map,
        Function.comp] at hl
      obtain ⟨L, ⟨i, hi, rfl⟩, hlL⟩ := hl
      rw [find_planes_count] at hi
      rw [List.mem_range'_1] at hi
      obtain ⟨t', hl_eq, ht'_len, ht'_bounds, ht'_sorted, ht'_exact⟩ :=
        ih (i + 1) (base ++ [i]) l hlL
      refine ⟨i :: t', by simpa using hl_eq, by simpa using ht'_len, ?_, ?_, ht'_exact⟩
      · intro j hj
        rcases List.mem_cons.mp hj with rfl | hj'
        · omega
        · have := ht'_bounds j hj'
          omega
      · rw [List.sorted_cons]
        exact ⟨fun b hb => by have := (ht'_bounds b hb).1; omega, ht'_sorted⟩
    case isFalse => simp at hl

/-- Results are produced in strictly increasing index-lexicographic order. -/
theorem find_planes_pairwise_lex :
    ∀ (r start : ℕ) (base : List ℕ),
      ((find_planes start base r).1).Pairwise (List.Lex (· < ·)) := by
  intro r
  induction r with
  | zero =>
    intro start base
    simp only [find_planes]
    split <;> simp
  | succ r ih =>
    intro start base
    simp only [find_planes]
    split
    case isTrue hfast =>
      simp only [List.map_map]
      rw [List.pairwise_flatten]
      constructor
      · intro L hL
        simp only [List.mem_map, Function.comp] at hL
        obtain ⟨i, _, rfl⟩ := hL
        exact ih _ _
      · rw [List.pairwise_map]
        refine (List.pairwise_lt_range' _ _).imp ?_
        intro i i' hii' x hx y hy
        obtain ⟨t1, rfl, -, -, -, -⟩ := find_planes_sound r (i + 1) (base ++ [i]) x hx
        obtain ⟨t2, rfl, -, -, -, -⟩ := find_planes_sound r (i' + 1) (base ++ [i']) y hy
        simpa using lex_append_cons hii' t1 t2
    case isFalse => simp

theorem snd_flatten_helper (rng : List ℕ) (F : ℕ → List (List ℕ) × List Char)
    (h : ∀ i ∈ rng, (F i).2 = List.replicate (F i).1.length '.') :
    (rng.map fun i => (F i).2).flatten =
      List.replicate ((rng.map fun i => (F i).1).flatten).length '.' := by
  induction rng with
  | nil => simp
  | cons a rng ih =>
    simp only [List.map_cons, List.flatten_cons, List.length_append]
    rw [h a (by simp), ih (fun i hi => h i (by simp [hi]))]
    rw [← List.replicate_add]

/-- The stdout of any `find_planes` call is exactly one progress dot per
produced plane. -/
theorem find_planes_snd_eq :
    ∀ (r start : ℕ) (base : List ℕ),
      (find_planes start base r).2 =
        List.replicate (find_planes start base r).1.length '.' := by
  intro r
  induction r with
  | zero =>
    intro start base
    simp only [find_planes]
    split <;> simp
  | succ r ih =>
    intro start base
    simp only [find_planes]
    split
    case isTrue hfast =>
      simp only [List.map_map, Function.comp]
      exact snd_flatten_helper _ _ (fun i _ => ih (i + 1) (base ++ [i]))
    case isFalse => simp

/-- Completeness of the pruned search: a sorted in-range run whose prefixes
all pass the fast filter and whose completion passes the exact check is
produced. -/
theorem find_planes_complete :
    ∀ (r start : ℕ) (base t : List ℕ), t.length = r →
      (∀ j ∈ t, start ≤ j ∧ j < 81) → List.Sorted (· < ·) t →
      (∀ m, m < r → is_solution_subseq_fast (base ++ t.take m) = true) →
      is_solution_subseq (base ++ t) = true →
      (base ++ t) ∈ (find_planes start base r).1 := by
  intro r
  induction r with
  | zero =>
    intro start base t hlen _ _ _ hexact
    rw [List.length_eq_zero.mp hlen] at hexact ⊢
    simp only [find_planes, List.append_nil] at hexact ⊢
    rw [if_pos hexact]
    simp
  | succ r ih =>
    intro start base t hlen hbounds hsorted hfast hexact
    match t, hlen with
    | j :: t', hlen =>
      have hfast0 : is_solution_subseq_fast base = true := by
        have := hfast 0 (by omega)
        simpa using this
      simp only [find_planes]
      rw [if_pos hfast0]
      simp only [List.map_map, List.mem_flatten, List.mem_map, Function.comp]
      have hsorted0 := List.sorted_cons.mp hsorted
      have hmem : (base ++ [j]) ++ t' ∈ (find_planes (j + 1) (base ++ [j]) r).1 := by
        apply ih
        · simpa using hlen
        · intro m hm
          exact ⟨hsorted0.1 m hm, (hbounds m (by simp [hm])).2⟩
        · exact hsorted0.2
        · intro m hm
          have := hfast (m + 1) (by omega)
          simpa [List.take_cons] using this
        · simpa using hexact
      refine ⟨(find_planes (j + 1) (base ++ [j]) r).1, ⟨j, ?_, rfl⟩, by simpa using hmem⟩
      rw [find_planes_count, List.mem_range'_1]
      have hj81 : j + r < 81 := by
        have h := sorted_head_bound hsorted (fun x hx => (hbounds x hx).2)
        have hlt : t'.length = r := by simpa using hlen
        omega
      exact ⟨(hbounds j (by simp)).1, by omega⟩

/-! ### Rational linear algebra for the exact coplanarity check -/

@[simp] theorem toQ_add (u v : Vec4 ℤ) : toQ (u + v) = toQ u + toQ v := by
  ext <;> simp [toQ]

@[simp] theorem toQ_smul (m : ℤ) (u : Vec4 ℤ) :
    toQ (m • u) = (m : ℚ) • toQ u := by
  ext <;> simp [toQ]

/-- Membership in the linear span of two rational vectors. -/
def InSpan (u v p : Vec4 ℚ) : Prop := ∃ a b : ℚ, p = a • u + b • v

/-- Linear independence of two rational vectors. -/
def LinIndepQ (x y : Vec4 ℚ) : Prop :=
  ∀ a b : ℚ, a • x + b • y = 0 → a = 0 ∧ b = 0

/-- Linear independence of two integer vectors. -/
def LinIndepZ (x y : Vec4 ℤ) : Prop :=
  ∀ m n : ℤ, m • x + n • y = 0 → m = 0 ∧ n = 0

theorem linIndepQ_of_linIndepZ {u v : Vec4 ℤ} (h : LinIndepZ u v) :
    LinIndepQ (toQ u) (toQ v) := by
  intro a b hab
  by_contra hcon
  have hden : ((a.den : ℚ) ≠ 0) := by exact_mod_cast a.den_nz
  have hden' : ((b.den : ℚ) ≠ 0) := by exact_mod_cast b.den_nz
  have hm : ((a.num * b.den : ℤ) : ℚ) = a * (a.den * b.den : ℚ) := by
    push_cast
    rw [show (a.num : ℚ) = a * a.den by
      field_simp [Rat.num_div_den]]
    ring
  have hn : ((b.num * a.den : ℤ) : ℚ) = b * (a.den * b.den : ℚ) := by
    push_cast
    rw [show (b.num : ℚ) = b * b.den by
      field_simp [Rat.num_div_den]]
    ring
  have hx := congrArg Vec4.x hab
  have hy := congrArg Vec4.y hab
  have hz := congrArg Vec4.z hab
  have hw := congrArg Vec4.w hab
  simp only [Vec4.add_x, Vec4.add_y, Vec4.add_z, Vec4.add_w, Vec4.smul_x,
    Vec4.smul_y, Vec4.smul_z, Vec4.smul_w, Vec4.zero_x, Vec4.zero_y,
    Vec4.zero_z, Vec4.zero_w, toQ_x, toQ_y, toQ_z, toQ_w] at hx hy hz hw
  have hZ : (a.num * b.den) • u + (b.num * a.den) • v = 0 := by
    apply toQ_injective
    rw [toQ_add, toQ_smul, toQ_smul, toQ_zero]
    ext
    · simp only [Vec4.add_x, Vec4.smul_x, Vec4.zero_x, toQ_x]
      rw [hm, hn]
      linear_combination (a.den * b.den : ℚ) * hx
    · simp only [Vec4.add_y, Vec4.smul_y, Vec4.zero_y, toQ_y]
      rw [hm, hn]
      linear_combination (a.den * b.den : ℚ) * hy
    · simp only [Vec4.add_z, Vec4.smul_z, Vec4.zero_z, toQ_z]
      rw [hm, hn]
      linear_combination (a.den * b.den : ℚ) * hz
    · simp only [Vec4.add_w, Vec4.smul_w, Vec4.zero_w, toQ_w]
      rw [hm, hn]
      linear_combination (a.den * b.den : ℚ) * hw
  have hres := h _ _ hZ
  rcases not_and_or.mp hcon with ha | hb
  · have hnum : a.num ≠ 0 := Rat.num_ne_zero.mpr ha
    have hbd : (b.den : ℤ) ≠ 0 := by exact_mod_cast b.den_nz
    rcases mul_eq_zero.mp hres.1 with h' | h'
    · exact hnum h'
    · exact hbd h'
  · have hnum : b.num ≠ 0 := Rat.num_ne_zero.mpr hb
    have had : (a.den : ℤ) ≠ 0 := by exact_mod_cast a.den_nz
    rcases mul_eq_zero.mp hres.2 with h' | h'
    · exact hnum h'
    · exact had h'

theorem inSpan_zero (u v : Vec4 ℚ) : InSpan u v 0 :=
  ⟨0, 0, by ext <;> simp⟩

theorem inSpan_left (u v : Vec4 ℚ) : InSpan u v u :=
  ⟨1, 0, by ext <;> simp⟩

theorem inSpan_right (u v : Vec4 ℚ) : InSpan u v v :=
  ⟨0, 1, by ext <;> simp⟩

/-- Exchange for two-dimensional spans: if linearly independent `x, y` lie
in the span of `u, v`, then that span is contained in the span of `x, y`. -/
theorem inSpan_exchange {u v x y z : Vec4 ℚ} (hx : InSpan u v x)
    (hy : InSpan u v y) (hz : InSpan u v z) (hxy : LinIndepQ x y) :
    InSpan x y z := by
  obtain ⟨x1, x2, rfl⟩ := hx
  obtain ⟨y1, y2, rfl⟩ := hy
  obtain ⟨z1, z2, rfl⟩ := hz
  set D : ℚ := x1 * y2 - x2 * y1 with hD_def
  by_cases hD : D = 0
  · exfalso
    by_cases hx0 : x1 = 0 ∧ x2 = 0
    · have hxz : (1 : ℚ) • (x1 • u + x2 • v) + (0 : ℚ) • (y1 • u + y2 • v) = 0 := by
        ext <;> simp [hx0.1, hx0.2]
      exact one_ne_zero (hxy 1 0 hxz).1
    · have hmain : ∃ μ : ℚ, y1 = μ * x1 ∧ y2 = μ * x2 := by
        rcases not_and_or.mp hx0 with h1 | h2
        · refine ⟨y1 / x1, by field_simp, ?_⟩
          field_simp
          rw [hD_def] at hD
          linarith [sub_eq_zero.mp hD]
        · refine ⟨y2 / x2, ?_, by field_simp⟩
          field_simp
          rw [hD_def] at hD
          linarith [sub_eq_zero.mp hD]
      obtain ⟨μ, hμ1, hμ2⟩ := hmain
      have hyz : μ • (x1 • u + x2 • v) + (-1 : ℚ) • (y1 • u + y2 • v) = 0 := by
        ext <;> simp [hμ1, hμ2] <;> ring
      exact one_ne_zero (neg_eq_zero.mp (hxy μ (-1) hyz).2)
  · refine ⟨(z1 * y2 - z2 * y1) / D, (x1 * z2 - x2 * z1) / D, ?_⟩
    ext
    · simp only [Vec4.add_x, Vec4.smul_x]
      field_simp
      ring
    · simp only [Vec4.add_y, Vec4.smul_y]
      field_simp
      ring
    · simp only [Vec4.add_z, Vec4.smul_z]
      field_simp
      ring
    · simp only [Vec4.add_w, Vec4.smul_w]
      field_simp
      ring

/-- Orthogonality of the Gram–Schmidt step. -/
theorem dot_orthAgainst {b : Vec4 ℚ} (p : Vec4 ℚ) (hb : dot b b ≠ 0) :
    dot b (orthAgainst b p) = 0 := by
  simp only [orthAgainst, Vec4.dot_sub_right, Vec4.dot_smul_right]
  field_simp

/-- A vector in the span of an orthogonal pair has zero residual after the
two projection steps of the source. -/
theorem residual_zero_of_inSpan {b1 b2 p : Vec4 ℚ} (hb1 : dot b1 b1 ≠ 0)
    (hb2 : dot b2 b2 ≠ 0) (horth : dot b1 b2 = 0) (hp : InSpan b1 b2 p) :
    orthAgainst b2 (orthAgainst b1 p) = 0 := by
  obtain ⟨a, b, rfl⟩ := hp
  have h1 : orthAgainst b1 (a • b1 + b • b2) = b • b2 := by
    simp only [orthAgainst, Vec4.dot_add_right, Vec4.dot_smul_right, horth]
    have hc : (a * dot b1 b1 + b * 0) / dot b1 b1 = a := by field_simp
    rw [hc]
    ext <;> simp <;> ring
  rw [h1]
  simp only [orthAgainst, Vec4.dot_smul_right]
  have hc : b * dot b2 b2 / dot b2 b2 = b := by field_simp
  rw [hc]
  ext <;> simp <;> ring

/-- Conversely, a zero residual exhibits the vector inside the span of the
two basis vectors; no nondegeneracy is needed (division by zero yields zero
in `ℚ`, matching a degenerate projection step that subtracts nothing). -/
theorem inSpan_of_residual_zero {b1 b2 p : Vec4 ℚ}
    (h : orthAgainst b2 (orthAgainst b1 p) = 0) : InSpan b1 b2 p := by
  set o1 := orthAgainst b1 p with ho1
  refine ⟨dot b1 p / dot b1 b1, dot b2 o1 / dot b2 b2, ?_⟩
  have hx := congrArg Vec4.x h
  have hy := congrArg Vec4.y h
  have hz := congrArg Vec4.z h
  have hw := congrArg Vec4.w h
  simp only [orthAgainst, Vec4.sub_x, Vec4.sub_y, Vec4.sub_z, Vec4.sub_w,
    Vec4.smul_x, Vec4.smul_y, Vec4.smul_z, Vec4.smul_w, Vec4.zero_x,
    Vec4.zero_y, Vec4.zero_z, Vec4.zero_w] at hx hy hz hw
  have e1 : o1 = (dot b2 o1 / dot b2 b2) • b2 := by
    ext
    · simp only [Vec4.smul_x]; linarith
    · simp only [Vec4.smul_y]; linarith
    · simp only [Vec4.smul_z]; linarith
    · simp only [Vec4.smul_w]; linarith
  have e2 : p = (dot b1 p / dot b1 b1) • b1 + o1 := by
    rw [ho1]
    ext <;> simp [orthAgainst] <;> ring
  calc p = (dot b1 p / dot b1 b1) • b1 + o1 := e2
    _ = (dot b1 p / dot b1 b1) • b1 + (dot b2 o1 / dot b2 b2) • b2 := by
        rw [← e1]

/-! ### Classification of integer dependences among bounded vectors -/

/-- Components bounded by 2 in absolute value: the difference of two lattice
points always satisfies this. -/
def smallVec (v : Vec4 ℤ) : Prop :=
  -2 ≤ v.x ∧ v.x ≤ 2 ∧ -2 ≤ v.y ∧ v.y ≤ 2 ∧
    -2 ≤ v.z ∧ v.z ≤ 2 ∧ -2 ≤ v.w ∧ v.w ≤ 2

theorem smallVec_of_points {p q : Vec4 ℤ} (hp : p ∈ all_points)
    (hq : q ∈ all_points) : smallVec (p - q) := by
  have h1 := all_points_bounds p hp
  have h2 := all_points_bounds q hq
  clear hp hq
  unfold smallVec
  simp only [Vec4.sub_x, Vec4.sub_y, Vec4.sub_z, Vec4.sub_w]
  omega

set_option maxHeartbeats 1000000 in
/-- Scalar step of the classification: a single linear relation on a
bounded component pair forces one of seven coefficient patterns. -/
theorem scalar_cases {a b m n : ℤ} (ha : -2 ≤ a) (ha' : a ≤ 2) (hb : -2 ≤ b)
    (hb' : b ≤ 2) (hbne : b ≠ 0) (hk : m * b + n * a = 0)
    (hmn : ¬(m = 0 ∧ n = 0)) :
    (m = 0 ∧ n ≠ 0 ∧ a = 0) ∨ (n = -2 * m ∧ m ≠ 0) ∨ (n = -m ∧ m ≠ 0) ∨
      (m = -2 * n ∧ n ≠ 0) ∨ (n = 2 * m ∧ m ≠ 0) ∨ (m = n ∧ n ≠ 0) ∨
      (m = 2 * n ∧ n ≠ 0) := by
  have hcase : a = 0 ∨ 2 * a = b ∨ a = b ∨ a = 2 * b ∨ 2 * a = -b ∨ a = -b ∨
      a = -2 * b := by omega
  rcases hcase with h | h | h | h | h | h | h
  · left
    subst h
    simp only [mul_zero, add_zero] at hk
    have hm0 : m = 0 := by
      rcases mul_eq_zero.mp hk with h' | h'
      · exact h'
      · exact absurd h' hbne
    exact ⟨hm0, fun hn0 => hmn ⟨hm0, hn0⟩, rfl⟩
  · have ha0 : a ≠ 0 := by omega
    have h2 : (2 * m + n) * a = 0 := by linear_combination hk + m * h
    have hrel : 2 * m + n = 0 := by
      rcases mul_eq_zero.mp h2 with h' | h'
      · exact h'
      · exact absurd h' ha0
    have hm0 : m ≠ 0 := by
      intro hm
      exact hmn ⟨hm, by omega⟩
    exact Or.inr (Or.inl ⟨by omega, hm0⟩)
  · have ha0 : a ≠ 0 := by omega
    have h2 : (m + n) * a = 0 := by linear_combination hk + m * h
    have hrel : m + n = 0 := by
      rcases mul_eq_zero.mp h2 with h' | h'
      · exact h'
      · exact absurd h' ha0
    have hm0 : m ≠ 0 := by
      intro hm
      exact hmn ⟨hm, by omega⟩
    exact Or.inr (Or.inr (Or.inl ⟨by omega, hm0⟩))
  · have h2 : (m + 2 * n) * b = 0 := by linear_combination hk - n * h
    have hrel : m + 2 * n = 0 := by
      rcases mul_eq_zero.mp h2 with h' | h'
      · exact h'
      · exact absurd h' hbne
    have hn0 : n ≠ 0 := by
      intro hn
      exact hmn ⟨by omega, hn⟩
    exact Or.inr (Or.inr (Or.inr (Or.inl ⟨by omega, hn0⟩)))
  · have ha0 : a ≠ 0 := by omega
    have h2 : (n - 2 * m) * a = 0 := by linear_combination hk - m * h
    have hrel : n - 2 * m = 0 := by
      rcases mul_eq_zero.mp h2 with h' | h'
      · exact h'
      · exact absurd h' ha0
    have hm0 : m ≠ 0 := by
      intro hm
      exact hmn ⟨hm, by omega⟩
    exact Or.inr (Or.inr (Or.inr (Or.inr (Or.inl ⟨by omega, hm0⟩))))
  · have h2 : (m - n) * b = 0 := by linear_combination hk - n * h
    have hrel : m - n = 0 := by
      rcases mul_eq_zero.mp h2 with h' | h'
      · exact h'
      · exact absurd h' hbne
    have hn0 : n ≠ 0 := by
      intro hn
      exact hmn ⟨by omega, hn⟩
    exact Or.inr (Or.inr (Or.inr (Or.inr (Or.inr (Or.inl ⟨by omega, hn0⟩)))))
  · have h2 : (m - 2 * n) * b = 0 := by linear_combination hk - n * h
    have hrel : m - 2 * n = 0 := by
      rcases mul_eq_zero.mp h2 with h' | h'
      · exact h'
      · exact absurd h' hbne
    have hn0 : n ≠ 0 := by
      intro hn
      exact hmn ⟨by omega, hn⟩
    exact Or.inr (Or.inr (Or.inr (Or.inr (Or.inr (Or.inr ⟨by omega, hn0⟩)))))

/-- Classification of linear dependences between two integer vectors with
components bounded by 2: the only possibilities are the seven listed shapes.
This is the bounded-component argument of the source's docstring. -/
theorem dep_cases {b1 p : Vec4 ℤ} (hsb : smallVec b1) (hsp : smallVec p)
    (hb1 : b1 ≠ 0) {m n : ℤ} (hmn : ¬(m = 0 ∧ n = 0))
    (h0 : m • b1 + n • p = 0) :
    p = 0 ∨ (2:ℤ) • p = b1 ∨ p = b1 ∨ p = (2:ℤ) • b1 ∨ (2:ℤ) • p = -b1 ∨ p = -b1 ∨
      p = (-2:ℤ) • b1 := by
  obtain ⟨hb1x, hb1x', hb1y, hb1y', hb1z, hb1z', hb1w, hb1w'⟩ := hsb
  obtain ⟨hpx, hpx', hpy, hpy', hpz, hpz', hpw, hpw'⟩ := hsp
  have hx := congrArg Vec4.x h0
  have hy := congrArg Vec4.y h0
  have hz := congrArg Vec4.z h0
  have hw := congrArg Vec4.w h0
  simp only [Vec4.add_x, Vec4.add_y, Vec4.add_z, Vec4.add_w, Vec4.smul_x,
    Vec4.smul_y, Vec4.smul_z, Vec4.smul_w, Vec4.zero_x, Vec4.zero_y,
    Vec4.zero_z, Vec4.zero_w] at hx hy hz hw
  have hcomp : b1.x ≠ 0 ∨ b1.y ≠ 0 ∨ b1.z ≠ 0 ∨ b1.w ≠ 0 := by
    by_contra hc
    push_neg at hc
    exact hb1 (by ext <;> simp [hc.1, hc.2.1, hc.2.2.1, hc.2.2.2])
  have hmain : (m = 0 ∧ n ≠ 0) ∨ (n = -2 * m ∧ m ≠ 0) ∨
      (n = -m ∧ m ≠ 0) ∨ (m = -2 * n ∧ n ≠ 0) ∨ (n = 2 * m ∧ m ≠ 0) ∨
      (m = n ∧ n ≠ 0) ∨ (m = 2 * n ∧ n ≠ 0) := by
    rcases hcomp with hk | hk | hk | hk
    · exact (scalar_cases hpx hpx' hb1x hb1x' hk hx hmn).imp
        (fun h => ⟨h.1, h.2.1⟩) id
    · exact (scalar_cases hpy hpy' hb1y hb1y' hk hy hmn).imp
        (fun h => ⟨h.1, h.2.1⟩) id
    · exact (scalar_cases hpz hpz' hb1z hb1z' hk hz hmn).imp
        (fun h => ⟨h.1, h.2.1⟩) id
    · exact (scalar_cases hpw hpw' hb1w hb1w' hk hw hmn).imp
        (fun h => ⟨h.1, h.2.1⟩) id
  rcases hmain with ⟨hm0, hn0⟩ | ⟨hr, hm0⟩ | ⟨hr, hm0⟩ | ⟨hr, hn0⟩ |
    ⟨hr, hm0⟩ | ⟨hr, hn0⟩ | ⟨hr, hn0⟩
  · subst hm0
    refine Or.inl (smul_eq_zero_vec (m := n) ?_ hn0)
    ext
    · simp only [Vec4.smul_x, Vec4.zero_x]; linear_combination hx
    · simp only [Vec4.smul_y, Vec4.zero_y]; linear_combination hy
    · simp only [Vec4.smul_z, Vec4.zero_z]; linear_combination hz
    · simp only [Vec4.smul_w, Vec4.zero_w]; linear_combination hw
  · subst hr
    refine Or.inr (Or.inl ?_)
    have hv : m • (b1 - (2:ℤ) • p) = 0 := by
      ext
      · simp only [Vec4.smul_x, Vec4.sub_x, Vec4.zero_x]; linear_combination hx
      · simp only [Vec4.smul_y, Vec4.sub_y, Vec4.zero_y]; linear_combination hy
      · simp only [Vec4.smul_z, Vec4.sub_z, Vec4.zero_z]; linear_combination hz
      · simp only [Vec4.smul_w, Vec4.sub_w, Vec4.zero_w]; linear_combination hw
    have := smul_eq_zero_vec hv hm0
    rw [Vec4.ext_iff] at this ⊢
    simp only [Vec4.sub_x, Vec4.sub_y, Vec4.sub_z, Vec4.sub_w, Vec4.smul_x,
      Vec4.smul_y, Vec4.smul_z, Vec4.smul_w, Vec4.zero_x, Vec4.zero_y,
      Vec4.zero_z, Vec4.zero_w] at this ⊢
    omega
  · subst hr
    refine Or.inr (Or.inr (Or.inl ?_))
    have hv : m • (b1 - p) = 0 := by
      ext
      · simp only [Vec4.smul_x, Vec4.sub_x, Vec4.zero_x]; linear_combination hx
      · simp only [Vec4.smul_y, Vec4.sub_y, Vec4.zero_y]; linear_combination hy
      · simp only [Vec4.smul_z, Vec4.sub_z, Vec4.zero_z]; linear_combination hz
      · simp only [Vec4.smul_w, Vec4.sub_w, Vec4.zero_w]; linear_combination hw
    have := smul_eq_zero_vec hv hm0
    rw [Vec4.ext_iff] at this ⊢
    simp only [Vec4.sub_x, Vec4.sub_y, Vec4.sub_z, Vec4.sub_w, Vec4.zero_x,
      Vec4.zero_y, Vec4.zero_z, Vec4.zero_w] at this ⊢
    omega
  · subst hr
    refine Or.inr (Or.inr (Or.inr (Or.inl ?_)))
    have hv : n • (p - (2:ℤ) • b1) = 0 := by
      ext
      · simp only [Vec4.smul_x, Vec4.sub_x, Vec4.zero_x]; linear_combination hx
      · simp only [Vec4.smul_y, Vec4.sub_y, Vec4.zero_y]; linear_combination hy
      · simp only [Vec4.smul_z, Vec4.sub_z, Vec4.zero_z]; linear_combination hz
      · simp only [Vec4.smul_w, Vec4.sub_w, Vec4.zero_w]; linear_combination hw
    have := smul_eq_zero_vec hv hn0
    rw [Vec4.ext_iff] at this ⊢
    simp only [Vec4.sub_x, Vec4.sub_y, Vec4.sub_z, Vec4.sub_w, Vec4.smul_x,
      Vec4.smul_y, Vec4.smul_z, Vec4.smul_w, Vec4.zero_x, Vec4.zero_y,
      Vec4.zero_z, Vec4.zero_w] at this ⊢
    omega
  · subst hr
    refine Or.inr (Or.inr (Or.inr (Or.inr (Or.inl ?_))))
    have hv : m • (b1 + (2:ℤ) • p) = 0 := by
      ext
      · simp only [Vec4.smul_x, Vec4.add_x, Vec4.zero_x]; linear_combination hx
      · simp only [Vec4.smul_y, Vec4.add_y, Vec4.zero_y]; linear_combination hy
      · simp only [Vec4.smul_z, Vec4.add_z, Vec4.zero_z]; linear_combination hz
      · simp only [Vec4.smul_w, Vec4.add_w, Vec4.zero_w]; linear_combination hw
    have := smul_eq_zero_vec hv hm0
    rw [Vec4.ext_iff] at this ⊢
    simp only [Vec4.add_x, Vec4.add_y, Vec4.add_z, Vec4.add_w, Vec4.smul_x,
      Vec4.smul_y, Vec4.smul_z, Vec4.smul_w, Vec4.zero_x, Vec4.zero_y,
      Vec4.zero_z, Vec4.zero_w, Vec4.neg_x, Vec4.neg_y, Vec4.neg_z,
      Vec4.neg_w] at this ⊢
    omega
  · subst hr
    refine Or.inr (Or.inr (Or.inr (Or.inr (Or.inr (Or.inl ?_)))))
    have hv : m • (b1 + p) = 0 := by
      ext
      · simp only [Vec4.smul_x, Vec4.add_x, Vec4.zero_x]; linear_combination hx
      · simp only [Vec4.smul_y, Vec4.add_y, Vec4.zero_y]; linear_combination hy
      · simp only [Vec4.smul_z, Vec4.add_z, Vec4.zero_z]; linear_combination hz
      · simp only [Vec4.smul_w, Vec4.add_w, Vec4.zero_w]; linear_combination hw
    have := smul_eq_zero_vec hv hn0
    rw [Vec4.ext_iff] at this ⊢
    simp only [Vec4.add_x, Vec4.add_y, Vec4.add_z, Vec4.add_w, Vec4.zero_x,
      Vec4.zero_y, Vec4.zero_z, Vec4.zero_w, Vec4.neg_x, Vec4.neg_y,
      Vec4.neg_z, Vec4.neg_w] at this ⊢
    omega
  · subst hr
    refine Or.inr (Or.inr (Or.inr (Or.inr (Or.inr (Or.inr ?_)))))
    have hv : n • ((2:ℤ) • b1 + p) = 0 := by
      ext
      · simp only [Vec4.smul_x, Vec4.add_x, Vec4.zero_x]; linear_combination hx
      · simp only [Vec4.smul_y, Vec4.add_y, Vec4.zero_y]; linear_combination hy
      · simp only [Vec4.smul_z, Vec4.add_z, Vec4.zero_z]; linear_combination hz
      · simp only [Vec4.smul_w, Vec4.add_w, Vec4.zero_w]; linear_combination hw
    have := smul_eq_zero_vec hv hn0
    rw [Vec4.ext_iff] at this ⊢
    simp only [Vec4.add_x, Vec4.add_y, Vec4.add_z, Vec4.add_w, Vec4.smul_x,
      Vec4.smul_y, Vec4.smul_z, Vec4.smul_w, Vec4.zero_x, Vec4.zero_y,
      Vec4.zero_z, Vec4.zero_w, Vec4.neg_x, Vec4.neg_y, Vec4.neg_z,
      Vec4.neg_w] at this ⊢
    omega

/-- Independence of the two basis vectors selected by the exact check, for a
sorted candidate: the three explicit exclusions of the source's scan,
together with sortedness (which rules out the half-multiple and the repeated
point), leave no possible dependence. -/
theorem basis_indep_of_sorted {P0 P1 Pk : Vec4 ℤ}
    (hP0 : P0 ∈ all_points) (hP1 : P1 ∈ all_points) (hPk : Pk ∈ all_points)
    (h01 : lexLt P0 P1) (h1k : lexLt P1 Pk)
    (hne1 : Pk - P0 ≠ -(P1 - P0))
    (hne2 : Pk - P0 ≠ (-2 : ℤ) • (P1 - P0))
    (hne3 : Pk - P0 ≠ (2 : ℤ) • (P1 - P0)) :
    LinIndepZ (P1 - P0) (Pk - P0) := by
  intro m n h0
  by_contra hcon
  have hsb := smallVec_of_points hP1 hP0
  have hsp := smallVec_of_points hPk hP0
  have h0b1 : lexLt 0 (P1 - P0) := lexLt_zero_sub_iff.mpr h01
  have h0p : lexLt 0 (Pk - P0) := lexLt_zero_sub_iff.mpr (lexLt_trans h01 h1k)
  have hb1p : lexLt (P1 - P0) (Pk - P0) := lexLt_sub_iff.mpr h1k
  have hb1 : P1 - P0 ≠ 0 := by
    intro h
    rw [h] at h0b1
    exact lexLt_irrefl 0 h0b1
  unfold lexLt at h0b1 h0p hb1p
  simp only [Vec4.sub_x, Vec4.sub_y, Vec4.sub_z, Vec4.sub_w, Vec4.zero_x,
    Vec4.zero_y, Vec4.zero_z, Vec4.zero_w] at h0b1 h0p hb1p
  rcases dep_cases hsb hsp hb1 hcon h0 with hc | hc | hc | hc | hc | hc | hc
  · rw [Vec4.ext_iff] at hc
    simp only [Vec4.sub_x, Vec4.sub_y, Vec4.sub_z, Vec4.sub_w, Vec4.zero_x,
      Vec4.zero_y, Vec4.zero_z, Vec4.zero_w] at hc
    omega
  · rw [Vec4.ext_iff] at hc
    simp only [Vec4.sub_x, Vec4.sub_y, Vec4.sub_z, Vec4.sub_w, Vec4.smul_x,
      Vec4.smul_y, Vec4.smul_z, Vec4.smul_w] at hc
    omega
  · rw [Vec4.ext_iff] at hc
    simp only [Vec4.sub_x, Vec4.sub_y, Vec4.sub_z, Vec4.sub_w] at hc
    omega
  · exact hne3 hc
  · rw [Vec4.ext_iff] at hc
    simp only [Vec4.sub_x, Vec4.sub_y, Vec4.sub_z, Vec4.sub_w, Vec4.smul_x,
      Vec4.smul_y, Vec4.smul_z, Vec4.smul_w, Vec4.neg_x, Vec4.neg_y,
      Vec4.neg_z, Vec4.neg_w] at hc
    omega
  · exact hne1 hc
  · exact hne2 hc

/-! ### Affine coplanarity -/

/-- Affine coplanarity, following the spec's words: the points all lie in a
common affine subspace of dimension at most 2 of 4-space, i.e. in the
affine span of one point and at most two direction vectors, with rational
coordinates.  (Named `CoplanarPts` to avoid clashing with Mathlib.) -/
def CoplanarPts (l : List (Vec4 ℤ)) : Prop :=
  ∃ o u v : Vec4 ℚ, ∀ p ∈ l, ∃ a b : ℚ, toQ p = o + a • u + b • v

theorem inSpan_diff {o u v q1 q2 : Vec4 ℚ}
    (h1 : ∃ a b : ℚ, q1 = o + a • u + b • v)
    (h2 : ∃ a b : ℚ, q2 = o + a • u + b • v) : InSpan u v (q1 - q2) := by
  obtain ⟨a1, b1, rfl⟩ := h1
  obtain ⟨a2, b2, rfl⟩ := h2
  exact ⟨a1 - a2, b1 - b2, by ext <;> simp <;> ring⟩

theorem inSpan_sub_smul {u v p q : Vec4 ℚ} (hp : InSpan u v p)
    (hq : InSpan u v q) (c : ℚ) : InSpan u v (p - c • q) := by
  obtain ⟨a1, b1, rfl⟩ := hp
  obtain ⟨a2, b2, rfl⟩ := hq
  exact ⟨a1 - c * a2, b1 - c * b2, by ext <;> simp <;> ring⟩

theorem linIndepQ_orth {B1 B2 : Vec4 ℚ} (h : LinIndepQ B1 B2) (c : ℚ) :
    LinIndepQ B1 (B2 - c • B1) := by
  intro a b hab
  have h2 : (a - b * c) • B1 + b • B2 = 0 := by
    rw [← hab]
    ext <;> simp <;> ring
  rcases h _ _ h2 with ⟨h1, hb0⟩
  refine ⟨?_, hb0⟩
  rw [hb0] at h1
  simpa using h1

/-- Unfolding of the exact check on a candidate of length at least 3. -/
theorem is_solution_subseq_branch (i0 i1 a : ℕ) (l' : List ℕ) :
    is_solution_subseq (i0 :: i1 :: a :: l') =
      (match findBasis2 (pointAt i1 - pointAt i0)
          ((a :: l').map fun i => pointAt i - pointAt i0) with
      | none => true
      | some b2 =>
        ((pointAt i1 - pointAt i0) ::
            (a :: l').map fun i => pointAt i - pointAt i0).all
          fun p =>
            decide (orthAgainst
              (orthAgainst (toQ (pointAt i1 - pointAt i0)) (toQ b2))
              (orthAgainst (toQ (pointAt i1 - pointAt i0)) (toQ p)) = 0)) := rfl

theorem coplanar_point_step {o u v q : Vec4 ℚ} (h : InSpan u v (q - o)) :
    ∃ a b : ℚ, q = o + a • u + b • v := by
  obtain ⟨a, b, hab⟩ := h
  refine ⟨a, b, ?_⟩
  have hx := congrArg Vec4.x hab
  have hy := congrArg Vec4.y hab
  have hz := congrArg Vec4.z hab
  have hw := congrArg Vec4.w hab
  simp only [Vec4.sub_x, Vec4.sub_y, Vec4.sub_z, Vec4.sub_w, Vec4.add_x,
    Vec4.add_y, Vec4.add_z, Vec4.add_w, Vec4.smul_x, Vec4.smul_y,
    Vec4.smul_z, Vec4.smul_w] at hx hy hz hw
  ext
  · simp only [Vec4.add_x, Vec4.smul_x]; linarith
  · simp only [Vec4.add_y, Vec4.smul_y]; linarith
  · simp only [Vec4.add_z, Vec4.smul_z]; linarith
  · simp only [Vec4.add_w, Vec4.smul_w]; linarith

theorem colinear_step {q P0 b1z : Vec4 ℤ} {c : ℤ} (h : q - P0 = c • b1z) :
    ∃ a b : ℚ, toQ q = toQ P0 + a • toQ b1z + b • (0 : Vec4 ℚ) := by
  refine ⟨(c : ℚ), 0, ?_⟩
  have hQ := congrArg toQ h
  rw [toQ_sub, toQ_smul] at hQ
  have hx := congrArg Vec4.x hQ
  have hy := congrArg Vec4.y hQ
  have hz := congrArg Vec4.z hQ
  have hw := congrArg Vec4.w hQ
  simp only [Vec4.sub_x, Vec4.sub_y, Vec4.sub_z, Vec4.sub_w, Vec4.smul_x,
    Vec4.smul_y, Vec4.smul_z, Vec4.smul_w, toQ_x, toQ_y, toQ_z,
    toQ_w] at hx hy hz hw
  ext
  · simp only [Vec4.add_x, Vec4.smul_x, Vec4.zero_x, toQ_x]; linarith
  · simp only [Vec4.add_y, Vec4.smul_y, Vec4.zero_y, toQ_y]; linarith
  · simp only [Vec4.add_z, Vec4.smul_z, Vec4.zero_z, toQ_z]; linarith
  · simp only [Vec4.add_w, Vec4.smul_w, Vec4.zero_w, toQ_w]; linarith

/-- The exact check of the source decides affine coplanarity on sorted
in-range candidates. -/
theorem exact_iff_coplanar :
    ∀ {s : List ℕ}, List.Sorted (· < ·) s → (∀ i ∈ s, i < 81) →
      (is_solution_subseq s = true ↔ CoplanarPts (s.map pointAt))
  | [], _, _ => by
    simp only [is_solution_subseq, List.map_nil]
    exact ⟨fun _ => ⟨0, 0, 0, by simp⟩, fun _ => by trivial⟩
  | [i0], _, _ => by
    simp only [is_solution_subseq, List.map_cons, List.map_nil]
    refine ⟨fun _ => ⟨toQ (pointAt i0), 0, 0, ?_⟩, fun _ => by trivial⟩
    intro p hp
    simp only [List.mem_singleton] at hp
    subst hp
    exact ⟨0, 0, by ext <;> simp⟩
  | [i0, i1], _, _ => by
    simp only [is_solution_subseq, List.map_cons, List.map_nil]
    refine ⟨fun _ => ⟨toQ (pointAt i0), toQ (pointAt i1 - pointAt i0), 0, ?_⟩,
      fun _ => by trivial⟩
    intro p hp
    simp only [List.mem_cons, List.mem_singleton, List.not_mem_nil,
      or_false] at hp
    rcases hp with rfl | rfl
    · exact ⟨0, 0, by ext <;> simp⟩
    · exact ⟨1, 0, by ext <;> simp⟩
  | i0 :: i1 :: i2 :: irest, hs, hr => by
    have h01 : i0 < i1 := (List.sorted_cons.mp hs).1 i1 (by simp)
    have h1rest : ∀ k ∈ i2 :: irest, i1 < k := by
      intro k hk
      exact (List.sorted_cons.mp (List.sorted_cons.mp hs).2).1 k hk
    have h181 : i1 < 81 := hr i1 (by simp)
    have h081 : i0 < 81 := hr i0 (by simp)
    have hrange : ∀ k ∈ i2 :: irest, k < 81 := by
      intro k hk
      exact hr k (by simp only [List.mem_cons] at hk ⊢; tauto)
    rw [is_solution_subseq_branch]
    rcases hfind : findBasis2 (pointAt i1 - pointAt i0)
        ((i2 :: irest).map fun i => pointAt i - pointAt i0) with _ | b2
    · -- no second basis vector: all points colinear with basis1
      refine ⟨fun _ => ⟨toQ (pointAt i0), toQ (pointAt i1 - pointAt i0), 0, ?_⟩,
        fun _ => by trivial⟩
      intro q hq
      simp only [List.map_cons, List.mem_cons] at hq
      rcases hq with rfl | rfl | hq
      · exact ⟨0, 0, by ext <;> simp⟩
      · exact ⟨1, 0, by ext <;> simp⟩
      · have hq' : ∃ k ∈ i2 :: irest, pointAt k = q := by
          rcases hq with rfl | hq
          · exact ⟨i2, by simp, rfl⟩
          · obtain ⟨k, hk, rfl⟩ := List.mem_map.mp hq
            exact ⟨k, by simp [hk], rfl⟩
        obtain ⟨k, hk, rfl⟩ := hq'
        have hfail := List.find?_eq_none.mp hfind (pointAt k - pointAt i0)
          (List.mem_map.mpr ⟨k, hk, rfl⟩)
        rw [decide_eq_true_eq] at hfail
        push_neg at hfail
        by_cases hc1 : pointAt k - pointAt i0 = -(pointAt i1 - pointAt i0)
        · refine colinear_step (c := -1) ?_
          rw [hc1]
          ext <;> simp
        by_cases hc2 : pointAt k - pointAt i0 =
            (-2 : ℤ) • (pointAt i1 - pointAt i0)
        · exact colinear_step hc2
        · exact colinear_step (hfail hc1 hc2)
    · -- second basis vector found
      simp only
      obtain ⟨k, hkmem, hb2eq⟩ := List.mem_map.mp (List.mem_of_find?_eq_some hfind)
      have hpred := List.find?_some hfind
      rw [decide_eq_true_eq] at hpred
      obtain ⟨hne1, hne2, hne3⟩ := hpred
      subst hb2eq
      have hind : LinIndepZ (pointAt i1 - pointAt i0) (pointAt k - pointAt i0) :=
        basis_indep_of_sorted (pointAt_mem h081) (pointAt_mem h181)
          (pointAt_mem (hrange k hkmem)) (pointAt_lexLt h01 h181)
          (pointAt_lexLt (h1rest k hkmem) (hrange k hkmem)) hne1 hne2 hne3
      have hindQ := linIndepQ_of_linIndepZ hind
      have hb1zne : pointAt i1 - pointAt i0 ≠ 0 := by
        intro h
        have h0 := lexLt_zero_sub_iff.mpr (pointAt_lexLt h01 h181)
        rw [h] at h0
        exact lexLt_irrefl 0 h0
      have hB1ne : toQ (pointAt i1 - pointAt i0) ≠ 0 := by
        intro h
        exact hb1zne (toQ_injective (by rw [h, toQ_zero]))
      have hs1 : dot (toQ (pointAt i1 - pointAt i0))
          (toQ (pointAt i1 - pointAt i0)) ≠ 0 :=
        ne_of_gt (Vec4.dot_self_pos hB1ne)
      have hb2'form : orthAgainst (toQ (pointAt i1 - pointAt i0))
          (toQ (pointAt k - pointAt i0)) =
            toQ (pointAt k - pointAt i0) -
              (dot (toQ (pointAt i1 - pointAt i0)) (toQ (pointAt k - pointAt i0)) /
                dot (toQ (pointAt i1 - pointAt i0)) (toQ (pointAt i1 - pointAt i0))) •
                toQ (pointAt i1 - pointAt i0) := rfl
      have hindQ' : LinIndepQ (toQ (pointAt i1 - pointAt i0))
          (orthAgainst (toQ (pointAt i1 - pointAt i0))
            (toQ (pointAt k - pointAt i0))) := by
        rw [hb2'form]
        exact linIndepQ_orth hindQ _
      have hb2'ne : orthAgainst (toQ (pointAt i1 - pointAt i0))
          (toQ (pointAt k - pointAt i0)) ≠ 0 := by
        intro h
        have h2 := hindQ' 0 1 (by rw [h]; ext <;> simp)
        exact one_ne_zero h2.2
      have ht : dot (orthAgainst (toQ (pointAt i1 - pointAt i0))
            (toQ (pointAt k - pointAt i0)))
          (orthAgainst (toQ (pointAt i1 - pointAt i0))
            (toQ (pointAt k - pointAt i0))) ≠ 0 :=
        ne_of_gt (Vec4.dot_self_pos hb2'ne)
      have horth : dot (toQ (pointAt i1 - pointAt i0))
          (orthAgainst (toQ (pointAt i1 - pointAt i0))
            (toQ (pointAt k - pointAt i0))) = 0 :=
        dot_orthAgainst _ hs1
      constructor
      · -- exact check true → coplanar
        intro hall
        rw [List.all_eq_true] at hall
        refine ⟨toQ (pointAt i0), toQ (pointAt i1 - pointAt i0),
          orthAgainst (toQ (pointAt i1 - pointAt i0))
            (toQ (pointAt k - pointAt i0)), ?_⟩
        intro q hq
        simp only [List.map_cons, List.mem_cons] at hq
        have hstep : ∀ p ∈ (pointAt i1 - pointAt i0) ::
            ((i2 :: irest).map fun i => pointAt i - pointAt i0),
            InSpan (toQ (pointAt i1 - pointAt i0))
              (orthAgainst (toQ (pointAt i1 - pointAt i0))
                (toQ (pointAt k - pointAt i0))) (toQ p) := by
          intro p hp
          have := hall p hp
          rw [decide_eq_true_eq] at this
          exact inSpan_of_residual_zero this
        rcases hq with rfl | rfl | hq
        · exact ⟨0, 0, by ext <;> simp⟩
        · refine coplanar_point_step ?_
          rw [← toQ_sub]
          exact hstep (pointAt i1 - pointAt i0) (by simp)
        · have hq' : ∃ kk ∈ i2 :: irest, pointAt kk = q := by
            rcases hq with rfl | hq
            · exact ⟨i2, by simp, rfl⟩
            · obtain ⟨kk, hkk, rfl⟩ := List.mem_map.mp hq
              exact ⟨kk, by simp [hkk], rfl⟩
          obtain ⟨k', hk', rfl⟩ := hq'
          refine coplanar_point_step ?_
          rw [← toQ_sub]
          exact hstep (pointAt k' - pointAt i0)
            (by simp only [List.mem_cons]; right
                exact List.mem_map.mpr ⟨k', hk', rfl⟩)
      · -- coplanar → exact check true
        intro hcop
        obtain ⟨o, u, v, hplane⟩ := hcop
        have hq0 := hplane (pointAt i0)
          (List.mem_map.mpr ⟨i0, by simp, rfl⟩)
        have hrel : ∀ p ∈ (pointAt i1 - pointAt i0) ::
            ((i2 :: irest).map fun i => pointAt i - pointAt i0),
            InSpan u v (toQ p) := by
          intro p hp
          simp only [List.mem_cons, List.mem_map] at hp
          rcases hp with rfl | ⟨k', hk', rfl⟩
          · rw [toQ_sub]
            exact inSpan_diff
              (hplane (pointAt i1) (List.mem_map.mpr ⟨i1, by simp, rfl⟩)) hq0
          · rw [toQ_sub]
            refine inSpan_diff
              (hplane (pointAt k')
                (List.mem_map.mpr ⟨k', by simp only [List.mem_cons] at hk' ⊢; tauto, rfl⟩))
              hq0
        have hB1span : InSpan u v (toQ (pointAt i1 - pointAt i0)) :=
          hrel _ (by simp)
        have hb2Qspan : InSpan u v (toQ (pointAt k - pointAt i0)) := by
          refine hrel _ ?_
          simp only [List.mem_cons]
          right
          exact List.mem_map.mpr ⟨k, hkmem, rfl⟩
        have hb2'span : InSpan u v (orthAgainst (toQ (pointAt i1 - pointAt i0))
            (toQ (pointAt k - pointAt i0))) := by
          rw [hb2'form]
          exact inSpan_sub_smul hb2Qspan hB1span _
        rw [List.all_eq_true]
        intro p hp
        rw [decide_eq_true_eq]
        exact residual_zero_of_inSpan hs1 ht horth
          (inSpan_exchange hB1span hb2'span (hrel p hp) hindQ')

/-- No division by zero in the exact check on sorted in-range candidates:
both Gram–Schmidt denominators are strictly positive. -/
theorem divisions_pos {i0 i1 : ℕ} {l : List ℕ} {b2 : Vec4 ℤ}
    (hs : List.Sorted (· < ·) (i0 :: i1 :: l))
    (hr : ∀ i ∈ i0 :: i1 :: l, i < 81)
    (hfind : findBasis2 (pointAt i1 - pointAt i0)
        (l.map fun i => pointAt i - pointAt i0) = some b2) :
    0 < dot (pointAt i1 - pointAt i0) (pointAt i1 - pointAt i0) ∧
      0 < dot (orthAgainst (toQ (pointAt i1 - pointAt i0)) (toQ b2))
        (orthAgainst (toQ (pointAt i1 - pointAt i0)) (toQ b2)) := by
  have h01 : i0 < i1 := (List.sorted_cons.mp hs).1 i1 (by simp)
  have h1rest : ∀ k ∈ l, i1 < k := fun k hk =>
    (List.sorted_cons.mp (List.sorted_cons.mp hs).2).1 k hk
  have h181 : i1 < 81 := hr i1 (by simp)
  have h081 : i0 < 81 := hr i0 (by simp)
  have hrange : ∀ k ∈ l, k < 81 := fun k hk =>
    hr k (by simp only [List.mem_cons] at hk ⊢; tauto)
  obtain ⟨k, hkmem, hb2eq⟩ := List.mem_map.mp (List.mem_of_find?_eq_some hfind)
  have hpred := List.find?_some hfind
  rw [decide_eq_true_eq] at hpred
  obtain ⟨hne1, hne2, hne3⟩ := hpred
  subst hb2eq
  have hind : LinIndepZ (pointAt i1 - pointAt i0) (pointAt k - pointAt i0) :=
    basis_indep_of_sorted (pointAt_mem h081) (pointAt_mem h181)
      (pointAt_mem (hrange k hkmem)) (pointAt_lexLt h01 h181)
      (pointAt_lexLt (h1rest k hkmem) (hrange k hkmem)) hne1 hne2 hne3
  have hindQ := linIndepQ_of_linIndepZ hind
  have hb1zne : pointAt i1 - pointAt i0 ≠ 0 := by
    intro h
    have h0 := lexLt_zero_sub_iff.mpr (pointAt_lexLt h01 h181)
    rw [h] at h0
    exact lexLt_irrefl 0 h0
  refine ⟨Vec4.dot_self_pos hb1zne, ?_⟩
  have hB1ne : toQ (pointAt i1 - pointAt i0) ≠ 0 := by
    intro h
    exact hb1zne (toQ_injective (by rw [h, toQ_zero]))
  have hb2'form : orthAgainst (toQ (pointAt i1 - pointAt i0))
      (toQ (pointAt k - pointAt i0)) =
        toQ (pointAt k - pointAt i0) -
          (dot (toQ (pointAt i1 - pointAt i0)) (toQ (pointAt k - pointAt i0)) /
            dot (toQ (pointAt i1 - pointAt i0)) (toQ (pointAt i1 - pointAt i0))) •
            toQ (pointAt i1 - pointAt i0) := rfl
  have hindQ' : LinIndepQ (toQ (pointAt i1 - pointAt i0))
      (orthAgainst (toQ (pointAt i1 - pointAt i0))
        (toQ (pointAt k - pointAt i0))) := by
    rw [hb2'form]
    exact linIndepQ_orth hindQ _
  have hb2'ne : orthAgainst (toQ (pointAt i1 - pointAt i0))
      (toQ (pointAt k - pointAt i0)) ≠ 0 := by
    intro h
    have h2 := hindQ' 0 1 (by rw [h]; ext <;> simp)
    exact one_ne_zero h2.2
  exact Vec4.dot_self_pos hb2'ne

/-! ### Coplanar nine-point sets are affine grids

The necessity direction of the fast filter, left unfinished in the source's
docstring, is established here along the following route: a coplanar set of
nine distinct lattice points projects injectively onto some coordinate pair,
hence bijectively onto the 3×3 grid `{-1,0,1}²`; pulling the grid back shows
the set is an affine 3×3 grid `{c + mU + nV}`; sorting such a grid
lexicographically yields consecutive differences taking at most two values.
-/

/-- Indexed coordinate projection of a rational vector. -/
def coordQ : Fin 4 → Vec4 ℚ → ℚ
  | 0 => Vec4.x
  | 1 => Vec4.y
  | 2 => Vec4.z
  | 3 => Vec4.w

theorem coordQ_affine (i : Fin 4) (o u v : Vec4 ℚ) (a b : ℚ) :
    coordQ i (o + a • u + b • v) =
      coordQ i o + a * coordQ i u + b * coordQ i v := by
  fin_cases i <;> simp [coordQ]

theorem coordQ_sub (i : Fin 4) (p q : Vec4 ℚ) :
    coordQ i (p - q) = coordQ i p - coordQ i q := by
  fin_cases i <;> simp [coordQ]

theorem coordQ_smul (i : Fin 4) (a : ℚ) (p : Vec4 ℚ) :
    coordQ i (a • p) = a * coordQ i p := by
  fin_cases i <;> simp [coordQ]

theorem coordQ_add (i : Fin 4) (p q : Vec4 ℚ) :
    coordQ i (p + q) = coordQ i p + coordQ i q := by
  fin_cases i <;> simp [coordQ]

theorem eq_zero_of_coordQ {u : Vec4 ℚ} (h : ∀ i, coordQ i u = 0) : u = 0 := by
  have h0 := h 0
  have h1 := h 1
  have h2 := h 2
  have h3 := h 3
  simp only [coordQ] at h0 h1 h2 h3
  ext <;> assumption

theorem coordQ_toQ_bounds {q : Vec4 ℤ} (hq : q ∈ all_points) (i : Fin 4) :
    coordQ i (toQ q) = -1 ∨ coordQ i (toQ q) = 0 ∨ coordQ i (toQ q) = 1 := by
  have hb := all_points_bounds q hq
  fin_cases i <;>
    simp only [coordQ, toQ_x, toQ_y, toQ_z, toQ_w] <;>
    [skip; skip; skip; skip] <;>
    (first
      | (have h3 : q.x = -1 ∨ q.x = 0 ∨ q.x = 1 := by omega
         rcases h3 with h | h | h <;> rw [h] <;> norm_num)
      | (have h3 : q.y = -1 ∨ q.y = 0 ∨ q.y = 1 := by omega
         rcases h3 with h | h | h <;> rw [h] <;> norm_num)
      | (have h3 : q.z = -1 ∨ q.z = 0 ∨ q.z = 1 := by omega
         rcases h3 with h | h | h <;> rw [h] <;> norm_num)
      | (have h3 : q.w = -1 ∨ q.w = 0 ∨ q.w = 1 := by omega
         rcases h3 with h | h | h <;> rw [h] <;> norm_num))

/-- A linearly independent pair of vectors in `ℚ⁴` has a nonzero 2×2 minor
at some coordinate pair. -/
theorem minor_pair {u v : Vec4 ℚ} (h : LinIndepQ u v) :
    ∃ i j : Fin 4,
      coordQ i u * coordQ j v - coordQ i v * coordQ j u ≠ 0 := by
  have hu : u ≠ 0 := by
    intro hu0
    have := h 1 0 (by rw [hu0]; ext <;> simp)
    exact one_ne_zero this.1
  have hex : ∃ i, coordQ i u ≠ 0 := by
    by_contra hc
    push_neg at hc
    exact hu (eq_zero_of_coordQ hc)
  obtain ⟨i, hi⟩ := hex
  set c : ℚ := coordQ i v / coordQ i u with hc_def
  have hv' : v - c • u ≠ 0 := by
    intro h0
    have hdep : c • u + (-1 : ℚ) • v = 0 := by
      have hx := congrArg Vec4.x h0
      have hy := congrArg Vec4.y h0
      have hz := congrArg Vec4.z h0
      have hw := congrArg Vec4.w h0
      simp only [Vec4.sub_x, Vec4.sub_y, Vec4.sub_z, Vec4.sub_w, Vec4.smul_x,
        Vec4.smul_y, Vec4.smul_z, Vec4.smul_w, Vec4.zero_x, Vec4.zero_y,
        Vec4.zero_z, Vec4.zero_w] at hx hy hz hw
      ext <;> simp <;> linarith
    exact one_ne_zero (neg_eq_zero.mp (h c (-1) hdep).2)
  have hex2 : ∃ j, coordQ j (v - c • u) ≠ 0 := by
    by_contra hc2
    push_neg at hc2
    exact hv' (eq_zero_of_coordQ hc2)
  obtain ⟨j, hj⟩ := hex2
  refine ⟨i, j, ?_⟩
  have hexpand : coordQ i u * coordQ j v - coordQ i v * coordQ j u =
      coordQ i u * coordQ j (v - c • u) := by
    rw [coordQ_sub, coordQ_smul, hc_def]
    field_simp
    ring
  rw [hexpand]
  exact mul_ne_zero hi hj

/-- Nine distinct lattice points cannot be collinear: their coordinates on a
nonzero direction would give nine distinct values in `{-1,0,1}`. -/
theorem not_collinear_nine {pts : List (Vec4 ℤ)} (hlen : pts.length = 9)
    (hnd : pts.Nodup) (hmem : ∀ p ∈ pts, p ∈ all_points)
    {o w : Vec4 ℚ} (hline : ∀ q ∈ pts, ∃ t : ℚ, toQ q = o + t • w) :
    False := by
  by_cases hw : w = 0
  · subst hw
    match pts, hlen with
    | p0 :: p1 :: rest, _ =>
      have h0 := hline p0 (by simp)
      have h1 := hline p1 (by simp)
      obtain ⟨t0, ht0⟩ := h0
      obtain ⟨t1, ht1⟩ := h1
      have he : toQ p0 = toQ p1 := by
        rw [ht0, ht1]
        ext <;> simp
      have : p0 = p1 := toQ_injective he
      rw [List.nodup_cons] at hnd
      exact hnd.1 (by rw [this]; simp)
  · have hex : ∃ i, coordQ i w ≠ 0 := by
      by_contra hc
      push_neg at hc
      exact hw (eq_zero_of_coordQ hc)
    obtain ⟨i, hi⟩ := hex
    have hinj : ∀ x ∈ pts, ∀ y ∈ pts,
        coordQ i (toQ x) = coordQ i (toQ y) → x = y := by
      intro x hx y hy hxy
      obtain ⟨tx, htx⟩ := hline x hx
      obtain ⟨ty, hty⟩ := hline y hy
      rw [htx, hty] at hxy
      have hco : ∀ t : ℚ, coordQ i (o + t • w) = coordQ i o + t * coordQ i w := by
        intro t
        rw [coordQ_add, coordQ_smul]
      rw [hco, hco] at hxy
      have ht : tx = ty := by
        have h0 : (tx - ty) * coordQ i w = 0 := by linear_combination hxy
        rcases mul_eq_zero.mp h0 with h' | h'
        · linarith
        · exact absurd h' hi
      apply toQ_injective
      rw [htx, hty, ht]
    have hndm : (pts.map fun q => coordQ i (toQ q)).Nodup :=
      List.Nodup.map_on hinj hnd
    have hsub : (pts.map fun q => coordQ i (toQ q)).toFinset ⊆
        ({-1, 0, 1} : Finset ℚ) := by
      intro x hx
      rw [List.mem_toFinset, List.mem_map] at hx
      obtain ⟨q, hq, rfl⟩ := hx
      have := coordQ_toQ_bounds (hmem q hq) i
      simp only [Finset.mem_insert, Finset.mem_singleton]
      tauto
    have hcard := Finset.card_le_card hsub
    rw [List.toFinset_card_of_nodup hndm] at hcard
    simp only [List.length_map, hlen] at hcard
    have : ({-1, 0, 1} : Finset ℚ).card = 3 := by decide
    omega

/-- Cramer injectivity: on an affine plane with a nonzero minor at the
coordinate pair `(i, j)`, those two coordinates determine the point. -/
theorem cramer_inj {o u v : Vec4 ℚ} {i j : Fin 4}
    (hM : coordQ i u * coordQ j v - coordQ i v * coordQ j u ≠ 0)
    {q1 q2 : Vec4 ℚ} (h1 : ∃ a b : ℚ, q1 = o + a • u + b • v)
    (h2 : ∃ a b : ℚ, q2 = o + a • u + b • v)
    (hi : coordQ i q1 = coordQ i q2) (hj : coordQ j q1 = coordQ j q2) :
    q1 = q2 := by
  obtain ⟨a1, b1, rfl⟩ := h1
  obtain ⟨a2, b2, rfl⟩ := h2
  rw [coordQ_affine, coordQ_affine] at hi hj
  have hia : (a1 - a2) * coordQ i u + (b1 - b2) * coordQ i v = 0 := by
    linarith
  have hja : (a1 - a2) * coordQ j u + (b1 - b2) * coordQ j v = 0 := by
    linarith
  have ha : a1 = a2 := by
    have h0 : (a1 - a2) * (coordQ i u * coordQ j v - coordQ i v * coordQ j u)
        = 0 := by
      linear_combination coordQ j v * hia - coordQ i v * hja
    rcases mul_eq_zero.mp h0 with h' | h'
    · linarith
    · exact absurd h' hM
  have hb : b1 = b2 := by
    have h0 : (b1 - b2) * (coordQ i u * coordQ j v - coordQ i v * coordQ j u)
        = 0 := by
      linear_combination coordQ i u * hja - coordQ j u * hia
    rcases mul_eq_zero.mp h0 with h' | h'
    · linarith
    · exact absurd h' hM
  rw [ha, hb]

/-- Membership in the affine 3×3 grid with corner `c` and steps `A`, `B`. -/
def GridSet (c A B q : Vec4 ℤ) : Prop :=
  ∃ m n : ℤ, 0 ≤ m ∧ m ≤ 2 ∧ 0 ≤ n ∧ n ≤ 2 ∧ q = c + m • A + n • B

theorem gridSet_flip1 {c A B q : Vec4 ℤ} :
    GridSet c A B q ↔ GridSet (c + (2 : ℤ) • A) (-A) B q := by
  constructor
  · rintro ⟨m, n, hm0, hm2, hn0, hn2, rfl⟩
    exact ⟨2 - m, n, by omega, by omega, hn0, hn2, by ext <;> simp <;> ring⟩
  · rintro ⟨m, n, hm0, hm2, hn0, hn2, rfl⟩
    exact ⟨2 - m, n, by omega, by omega, hn0, hn2, by ext <;> simp <;> ring⟩

theorem gridSet_flip2 {c A B q : Vec4 ℤ} :
    GridSet c A B q ↔ GridSet (c + (2 : ℤ) • B) A (-B) q := by
  constructor
  · rintro ⟨m, n, hm0, hm2, hn0, hn2, rfl⟩
    exact ⟨m, 2 - n, hm0, hm2, by omega, by omega, by ext <;> simp <;> ring⟩
  · rintro ⟨m, n, hm0, hm2, hn0, hn2, rfl⟩
    exact ⟨m, 2 - n, hm0, hm2, by omega, by omega, by ext <;> simp <;> ring⟩

theorem gridSet_swap {c A B q : Vec4 ℤ} :
    GridSet c A B q ↔ GridSet c B A q := by
  constructor
  · rintro ⟨m, n, hm0, hm2, hn0, hn2, rfl⟩
    exact ⟨n, m, hn0, hn2, hm0, hm2, by ext <;> simp <;> ring⟩
  · rintro ⟨m, n, hm0, hm2, hn0, hn2, rfl⟩
    exact ⟨n, m, hn0, hn2, hm0, hm2, by ext <;> simp <;> ring⟩

/-- Two lexicographically positive steps whose doubles fit inside the cube
satisfy a strict dominance: one of them dwarfs the double of the other. -/
theorem order_dichotomy {U V : Vec4 ℤ} (hU : lexLt 0 U) (hV : lexLt 0 V)
    (hbU : -1 ≤ U.x ∧ U.x ≤ 1 ∧ -1 ≤ U.y ∧ U.y ≤ 1 ∧ -1 ≤ U.z ∧ U.z ≤ 1 ∧
      -1 ≤ U.w ∧ U.w ≤ 1)
    (hbV : -1 ≤ V.x ∧ V.x ≤ 1 ∧ -1 ≤ V.y ∧ V.y ≤ 1 ∧ -1 ≤ V.z ∧ V.z ≤ 1 ∧
      -1 ≤ V.w ∧ V.w ≤ 1)
    (hbUV : -1 ≤ U.x + V.x ∧ U.x + V.x ≤ 1 ∧ -1 ≤ U.y + V.y ∧
      U.y + V.y ≤ 1 ∧ -1 ≤ U.z + V.z ∧ U.z + V.z ≤ 1 ∧ -1 ≤ U.w + V.w ∧
      U.w + V.w ≤ 1) :
    lexLt ((2 : ℤ) • U) V ∨ lexLt ((2 : ℤ) • V) U := by
  unfold lexLt at *
  simp only [Vec4.smul_x, Vec4.smul_y, Vec4.smul_z, Vec4.smul_w, Vec4.zero_x,
    Vec4.zero_y, Vec4.zero_z, Vec4.zero_w] at *
  omega

theorem lexLt_add_right {a d : Vec4 ℤ} : lexLt a (a + d) ↔ lexLt 0 d := by
  unfold lexLt
  simp only [Vec4.add_x, Vec4.add_y, Vec4.add_z, Vec4.add_w, Vec4.zero_x,
    Vec4.zero_y, Vec4.zero_z, Vec4.zero_w]
  omega

/-- Inverse of the coordinate-pair projection on the affine plane spanned by
`u` and `v` through `o`: the Cramer solution mapping a coordinate pair
`(α, β)` back to the plane point having those `(i, j)` coordinates. -/
def Gfun (o u v : Vec4 ℚ) (i j : Fin 4) (α β : ℚ) : Vec4 ℚ :=
  o + (((α - coordQ i o) * coordQ j v - (β - coordQ j o) * coordQ i v) /
      (coordQ i u * coordQ j v - coordQ i v * coordQ j u)) • u +
    ((coordQ i u * (β - coordQ j o) - coordQ j u * (α - coordQ i o)) /
      (coordQ i u * coordQ j v - coordQ i v * coordQ j u)) • v

theorem Gfun_point {o u v : Vec4 ℚ} {i j : Fin 4}
    (hM : coordQ i u * coordQ j v - coordQ i v * coordQ j u ≠ 0)
    {q : Vec4 ℚ} (hq : ∃ a b : ℚ, q = o + a • u + b • v) :
    Gfun o u v i j (coordQ i q) (coordQ j q) = q := by
  obtain ⟨a, b, rfl⟩ := hq
  rw [coordQ_affine, coordQ_affine]
  unfold Gfun
  ext
  · simp only [Vec4.add_x, Vec4.smul_x]
    field_simp
    ring
  · simp only [Vec4.add_y, Vec4.smul_y]
    field_simp
    ring
  · simp only [Vec4.add_z, Vec4.smul_z]
    field_simp
    ring
  · simp only [Vec4.add_w, Vec4.smul_w]
    field_simp
    ring

theorem Gfun_coord_i {o u v : Vec4 ℚ} {i j : Fin 4}
    (hM : coordQ i u * coordQ j v - coordQ i v * coordQ j u ≠ 0) (α β : ℚ) :
    coordQ i (Gfun o u v i j α β) = α := by
  unfold Gfun
  rw [coordQ_affine]
  field_simp
  ring

theorem Gfun_coord_j {o u v : Vec4 ℚ} {i j : Fin 4}
    (hM : coordQ i u * coordQ j v - coordQ i v * coordQ j u ≠ 0) (α β : ℚ) :
    coordQ j (Gfun o u v i j α β) = β := by
  unfold Gfun
  rw [coordQ_affine]
  field_simp
  ring

theorem Gfun_affine {o u v : Vec4 ℚ} {i j : Fin 4}
    (hM : coordQ i u * coordQ j v - coordQ i v * coordQ j u ≠ 0) (α β : ℚ) :
    Gfun o u v i j α β = Gfun o u v i j (-1) (-1)
      + (α + 1) • (Gfun o u v i j 0 (-1) - Gfun o u v i j (-1) (-1))
      + (β + 1) • (Gfun o u v i j (-1) 0 - Gfun o u v i j (-1) (-1)) := by
  unfold Gfun
  ext
  · simp only [Vec4.add_x, Vec4.smul_x, Vec4.sub_x]
    field_simp
    ring
  · simp only [Vec4.add_y, Vec4.smul_y, Vec4.sub_y]
    field_simp
    ring
  · simp only [Vec4.add_z, Vec4.smul_z, Vec4.sub_z]
    field_simp
    ring
  · simp only [Vec4.add_w, Vec4.smul_w, Vec4.sub_w]
    field_simp
    ring

theorem smulQ_eq_zero {a : ℚ} {u : Vec4 ℚ} (ha : a ≠ 0) (h : a • u = 0) :
    u = 0 := by
  rw [Vec4.ext_iff] at h ⊢
  simp only [Vec4.smul_x, Vec4.smul_y, Vec4.smul_z, Vec4.smul_w, Vec4.zero_x,
    Vec4.zero_y, Vec4.zero_z, Vec4.zero_w] at h ⊢
  refine ⟨?_, ?_, ?_, ?_⟩ <;>
    [rcases mul_eq_zero.mp h.1 with h' | h';
     rcases mul_eq_zero.mp h.2.1 with h' | h';
     rcases mul_eq_zero.mp h.2.2.1 with h' | h';
     rcases mul_eq_zero.mp h.2.2.2 with h' | h'] <;>
    first | exact absurd h' ha | exact h'

/-- A coplanar nine-element sorted-free set of distinct lattice points is an
affine 3×3 grid. -/
theorem grid_cover {pts : List (Vec4 ℤ)} (hlen : pts.length = 9)
    (hnd : pts.Nodup) (hmem : ∀ p ∈ pts, p ∈ all_points)
    (hcop : CoplanarPts pts) :
    ∃ c A B : Vec4 ℤ, A ≠ 0 ∧ B ≠ 0 ∧
      ∀ q : Vec4 ℤ, q ∈ pts ↔ GridSet c A B q := by
  obtain ⟨o, u, v, hplane⟩ := hcop
  by_cases hind : LinIndepQ u v
  · -- independent case: the grid construction
    obtain ⟨i, j, hM⟩ := minor_pair hind
    have hinj : ∀ x ∈ pts, ∀ y ∈ pts,
        (coordQ i (toQ x), coordQ j (toQ x)) =
          (coordQ i (toQ y), coordQ j (toQ y)) → x = y := by
      intro x hx y hy hxy
      have h1 := congrArg Prod.fst hxy
      have h2 := congrArg Prod.snd hxy
      simp only at h1 h2
      exact toQ_injective (cramer_inj hM (hplane x hx) (hplane y hy) h1 h2)
    have hcard9 : pts.toFinset.card = 9 := by
      rw [List.toFinset_card_of_nodup hnd, hlen]
    have hiOn : Set.InjOn (fun q => (coordQ i (toQ q), coordQ j (toQ q)))
        ↑pts.toFinset := by
      intro x hx y hy hxy
      exact hinj x (List.mem_toFinset.mp hx) y (List.mem_toFinset.mp hy) hxy
    have himg : pts.toFinset.image
          (fun q => (coordQ i (toQ q), coordQ j (toQ q))) ⊆
        (({-1, 0, 1} : Finset ℚ) ×ˢ ({-1, 0, 1} : Finset ℚ)) := by
      intro p hp
      obtain ⟨q, hq, rfl⟩ := Finset.mem_image.mp hp
      have hb1 := coordQ_toQ_bounds (hmem q (List.mem_toFinset.mp hq)) i
      have hb2 := coordQ_toQ_bounds (hmem q (List.mem_toFinset.mp hq)) j
      rw [Finset.mem_product]
      simp only [Finset.mem_insert, Finset.mem_singleton]
      tauto
    have hEq : pts.toFinset.image
          (fun q => (coordQ i (toQ q), coordQ j (toQ q))) =
        (({-1, 0, 1} : Finset ℚ) ×ˢ ({-1, 0, 1} : Finset ℚ)) := by
      refine Finset.eq_of_subset_of_card_le himg ?_
      rw [Finset.card_image_of_injOn hiOn, hcard9]
      decide
    have hsurj : ∀ p : ℚ × ℚ,
        p ∈ (({-1, 0, 1} : Finset ℚ) ×ˢ ({-1, 0, 1} : Finset ℚ)) →
        ∃ q ∈ pts, (coordQ i (toQ q), coordQ j (toQ q)) = p := by
      intro p hp
      rw [← hEq] at hp
      obtain ⟨q, hq, h⟩ := Finset.mem_image.mp hp
      exact ⟨q, List.mem_toFinset.mp hq, h⟩
    obtain ⟨qC, hqC, hqCpi⟩ := hsurj (-1, -1) (by decide)
    obtain ⟨qA, hqA, hqApi⟩ := hsurj (0, -1) (by decide)
    obtain ⟨qB, hqB, hqBpi⟩ := hsurj (-1, 0) (by decide)
    have hqCi : coordQ i (toQ qC) = -1 := by
      have := congrArg Prod.fst hqCpi; simpa using this
    have hqCj : coordQ j (toQ qC) = -1 := by
      have := congrArg Prod.snd hqCpi; simpa using this
    have hqAi : coordQ i (toQ qA) = 0 := by
      have := congrArg Prod.fst hqApi; simpa using this
    have hqAj : coordQ j (toQ qA) = -1 := by
      have := congrArg Prod.snd hqApi; simpa using this
    have hqBi : coordQ i (toQ qB) = -1 := by
      have := congrArg Prod.fst hqBpi; simpa using this
    have hqBj : coordQ j (toQ qB) = 0 := by
      have := congrArg Prod.snd hqBpi; simpa using this
    have hGC : Gfun o u v i j (-1) (-1) = toQ qC := by
      have h := Gfun_point hM (hplane qC hqC)
      rw [hqCi, hqCj] at h
      exact h
    have hGA : Gfun o u v i j 0 (-1) = toQ qA := by
      have h := Gfun_point hM (hplane qA hqA)
      rw [hqAi, hqAj] at h
      exact h
    have hGB : Gfun o u v i j (-1) 0 = toQ qB := by
      have h := Gfun_point hM (hplane qB hqB)
      rw [hqBi, hqBj] at h
      exact h
    have hGq : ∀ q : Vec4 ℤ, ∀ α β : ℚ, coordQ i (toQ q) = α →
        coordQ j (toQ q) = β → (∃ a b : ℚ, toQ q = o + a • u + b • v) →
        toQ q = toQ qC + (α + 1) • toQ (qA - qC) + (β + 1) • toQ (qB - qC) := by
      intro q α β hα hβ hplaneq
      have h := Gfun_point hM hplaneq
      rw [hα, hβ] at h
      rw [← h, Gfun_affine hM, hGC, hGA, hGB, toQ_sub, toQ_sub]
    refine ⟨qC, qA - qC, qB - qC, ?_, ?_, ?_⟩
    · intro h
      have h1 : coordQ i (toQ (qA - qC)) = 1 := by
        rw [toQ_sub, coordQ_sub, hqAi, hqCi]
        norm_num
      rw [h, toQ_zero] at h1
      have : coordQ i (0 : Vec4 ℚ) = 0 := by
        fin_cases i <;> simp [coordQ]
      rw [this] at h1
      exact one_ne_zero h1.symm
    · intro h
      have h1 : coordQ j (toQ (qB - qC)) = 1 := by
        rw [toQ_sub, coordQ_sub, hqBj, hqCj]
        norm_num
      rw [h, toQ_zero] at h1
      have : coordQ j (0 : Vec4 ℚ) = 0 := by
        fin_cases j <;> simp [coordQ]
      rw [this] at h1
      exact one_ne_zero h1.symm
    · intro q
      constructor
      · intro hq
        have hbi := coordQ_toQ_bounds (hmem q hq) i
        have hbj := coordQ_toQ_bounds (hmem q hq) j
        have hmex : ∃ m : ℤ, 0 ≤ m ∧ m ≤ 2 ∧
            coordQ i (toQ q) + 1 = (m : ℚ) := by
          rcases hbi with h | h | h
          · exact ⟨0, by norm_num, by norm_num, by rw [h]; norm_num⟩
          · exact ⟨1, by norm_num, by norm_num, by rw [h]; norm_num⟩
          · exact ⟨2, by norm_num, by norm_num, by rw [h]; norm_num⟩
        have hnex : ∃ n : ℤ, 0 ≤ n ∧ n ≤ 2 ∧
            coordQ j (toQ q) + 1 = (n : ℚ) := by
          rcases hbj with h | h | h
          · exact ⟨0, by norm_num, by norm_num, by rw [h]; norm_num⟩
          · exact ⟨1, by norm_num, by norm_num, by rw [h]; norm_num⟩
          · exact ⟨2, by norm_num, by norm_num, by rw [h]; norm_num⟩
        obtain ⟨m, hm0, hm2, hm⟩ := hmex
        obtain ⟨n, hn0, hn2, hn⟩ := hnex
        refine ⟨m, n, hm0, hm2, hn0, hn2, ?_⟩
        apply toQ_injective
        have h := hGq q (coordQ i (toQ q)) (coordQ j (toQ q)) rfl rfl
          (hplane q hq)
        rw [hm, hn] at h
        rw [h, toQ_add, toQ_add, toQ_smul, toQ_smul]
      · rintro ⟨m, n, hm0, hm2, hn0, hn2, rfl⟩
        have hmem3 : ((m : ℚ) - 1) ∈ ({-1, 0, 1} : Finset ℚ) := by
          have : m = 0 ∨ m = 1 ∨ m = 2 := by omega
          rcases this with rfl | rfl | rfl <;>
            norm_num [Finset.mem_insert, Finset.mem_singleton]
        have hnem3 : ((n : ℚ) - 1) ∈ ({-1, 0, 1} : Finset ℚ) := by
          have : n = 0 ∨ n = 1 ∨ n = 2 := by omega
          rcases this with rfl | rfl | rfl <;>
            norm_num [Finset.mem_insert, Finset.mem_singleton]
        obtain ⟨q', hq', hq'pi⟩ := hsurj ((m : ℚ) - 1, (n : ℚ) - 1)
          (by rw [Finset.mem_product]; exact ⟨hmem3, hnem3⟩)
        have h1 : coordQ i (toQ q') = (m : ℚ) - 1 := by
          have := congrArg Prod.fst hq'pi; simpa using this
        have h2 : coordQ j (toQ q') = (n : ℚ) - 1 := by
          have := congrArg Prod.snd hq'pi; simpa using this
        have h := hGq q' ((m : ℚ) - 1) ((n : ℚ) - 1) h1 h2 (hplane q' hq')
        have heq : q' = qC + m • (qA - qC) + n • (qB - qC) := by
          apply toQ_injective
          rw [h, toQ_add, toQ_add, toQ_smul, toQ_smul]
          have hms : (m : ℚ) - 1 + 1 = (m : ℚ) := by ring
          have hns : (n : ℚ) - 1 + 1 = (n : ℚ) := by ring
          rw [hms, hns]
        rw [← heq]
        exact hq'
  · -- dependent case: the points would be collinear
    exfalso
    unfold LinIndepQ at hind
    push_neg at hind
    obtain ⟨a, b, hab, hne⟩ := hind
    by_cases hb : b = 0
    · subst hb
      have ha : a ≠ 0 := fun h => hne h rfl
      have hu : u = 0 := by
        apply smulQ_eq_zero ha
        have : a • u + (0 : ℚ) • v = a • u := by ext <;> simp
        rw [← this]
        exact hab
      refine not_collinear_nine hlen hnd hmem (o := o) (w := v) ?_
      intro q hq
      obtain ⟨aq, bq, hq'⟩ := hplane q hq
      exact ⟨bq, by rw [hq', hu]; ext <;> simp⟩
    · have hv : v = (-a / b) • u := by
        have hx := congrArg Vec4.x hab
        have hy := congrArg Vec4.y hab
        have hz := congrArg Vec4.z hab
        have hw := congrArg Vec4.w hab
        simp only [Vec4.add_x, Vec4.add_y, Vec4.add_z, Vec4.add_w,
          Vec4.smul_x, Vec4.smul_y, Vec4.smul_z, Vec4.smul_w, Vec4.zero_x,
          Vec4.zero_y, Vec4.zero_z, Vec4.zero_w] at hx hy hz hw
        ext
        · simp only [Vec4.smul_x]
          field_simp
          linarith
        · simp only [Vec4.smul_y]
          field_simp
          linarith
        · simp only [Vec4.smul_z]
          field_simp
          linarith
        · simp only [Vec4.smul_w]
          field_simp
          linarith
      refine not_collinear_nine hlen hnd hmem (o := o) (w := u) ?_
      intro q hq
      obtain ⟨aq, bq, hq'⟩ := hplane q hq
      refine ⟨aq + bq * (-a / b), ?_⟩
      rw [hq', hv]
      ext <;> simp <;> ring

instance : IsTrans (Vec4 ℤ) lexLt := ⟨fun _ _ _ => lexLt_trans⟩

theorem lexLt_neg_of_lt_zero {A : Vec4 ℤ} (h : lexLt A 0) : lexLt 0 (-A) := by
  unfold lexLt at *
  simp only [Vec4.neg_x, Vec4.neg_y, Vec4.neg_z, Vec4.neg_w, Vec4.zero_x,
    Vec4.zero_y, Vec4.zero_z, Vec4.zero_w] at *
  omega

/-- A sorted coplanar nine-point subset of the lattice is exactly a sorted
affine 3×3 grid with steps `U` and `V`, `0 < U` and `2U < V`
lexicographically. -/
theorem grid_sorted {pts : List (Vec4 ℤ)} (hlen : pts.length = 9)
    (hsort : pts.Pairwise lexLt) (hmem : ∀ p ∈ pts, p ∈ all_points)
    (hcop : CoplanarPts pts) :
    ∃ c U V : Vec4 ℤ, lexLt 0 U ∧ lexLt ((2 : ℤ) • U) V ∧
      pts = [c, c + U, c + (2 : ℤ) • U, c + V, c + U + V, c + (2 : ℤ) • U + V,
        c + (2 : ℤ) • V, c + U + (2 : ℤ) • V,
        c + (2 : ℤ) • U + (2 : ℤ) • V] := by
  have hnd : pts.Nodup := hsort.imp (fun h => lexLt_ne h)
  obtain ⟨c0, A, B, hA0, hB0, hiff⟩ := grid_cover hlen hnd hmem hcop
  -- normalise the sign of the first step
  have hnormA : ∃ c1 U, lexLt 0 U ∧ ∀ q, q ∈ pts ↔ GridSet c1 U B q := by
    rcases lexLt_trichotomy 0 A with h | h | h
    · exact ⟨c0, A, h, hiff⟩
    · exact absurd h.symm hA0
    · exact ⟨c0 + (2 : ℤ) • A, -A, lexLt_neg_of_lt_zero h,
        fun q => (hiff q).trans gridSet_flip1⟩
  obtain ⟨c1, U, hU, hiff1⟩ := hnormA
  have hBne : B ≠ 0 := hB0
  have hnormB : ∃ c2 V, lexLt 0 V ∧ ∀ q, q ∈ pts ↔ GridSet c2 U V q := by
    rcases lexLt_trichotomy 0 B with h | h | h
    · exact ⟨c1, B, h, hiff1⟩
    · exact absurd h.symm hB0
    · exact ⟨c1 + (2 : ℤ) • B, -B, lexLt_neg_of_lt_zero h,
        fun q => (hiff1 q).trans gridSet_flip2⟩
  obtain ⟨c2, V, hV, hiff2⟩ := hnormB
  -- componentwise bounds for the steps, from the four corners of the grid
  have hcor00 : c2 ∈ pts := (hiff2 c2).mpr
    ⟨0, 0, le_refl 0, by omega, le_refl 0, by omega, by ext <;> simp⟩
  have hcor20 : c2 + (2 : ℤ) • U ∈ pts := (hiff2 _).mpr
    ⟨2, 0, by omega, le_refl 2, le_refl 0, by omega, by ext <;> simp⟩
  have hcor02 : c2 + (2 : ℤ) • V ∈ pts := (hiff2 _).mpr
    ⟨0, 2, le_refl 0, by omega, by omega, le_refl 2, by ext <;> simp⟩
  have hcor22 : c2 + (2 : ℤ) • U + (2 : ℤ) • V ∈ pts := (hiff2 _).mpr
    ⟨2, 2, by omega, le_refl 2, by omega, le_refl 2, by ext <;> simp⟩
  have hb00 := all_points_bounds _ (hmem _ hcor00)
  have hb20 := all_points_bounds _ (hmem _ hcor20)
  have hb02 := all_points_bounds _ (hmem _ hcor02)
  have hb22 := all_points_bounds _ (hmem _ hcor22)
  simp only [Vec4.add_x, Vec4.add_y, Vec4.add_z, Vec4.add_w, Vec4.smul_x,
    Vec4.smul_y, Vec4.smul_z, Vec4.smul_w] at hb20 hb02 hb22
  have hbU : -1 ≤ U.x ∧ U.x ≤ 1 ∧ -1 ≤ U.y ∧ U.y ≤ 1 ∧ -1 ≤ U.z ∧
      U.z ≤ 1 ∧ -1 ≤ U.w ∧ U.w ≤ 1 := by omega
  have hbV : -1 ≤ V.x ∧ V.x ≤ 1 ∧ -1 ≤ V.y ∧ V.y ≤ 1 ∧ -1 ≤ V.z ∧
      V.z ≤ 1 ∧ -1 ≤ V.w ∧ V.w ≤ 1 := by omega
  have hbUV : -1 ≤ U.x + V.x ∧ U.x + V.x ≤ 1 ∧ -1 ≤ U.y + V.y ∧
      U.y + V.y ≤ 1 ∧ -1 ≤ U.z + V.z ∧ U.z + V.z ≤ 1 ∧ -1 ≤ U.w + V.w ∧
      U.w + V.w ≤ 1 := by omega
  -- choose the dominant step as the row jump
  have hfinal : ∃ U' V', lexLt 0 U' ∧ lexLt ((2 : ℤ) • U') V' ∧
      ∀ q, q ∈ pts ↔ GridSet c2 U' V' q := by
    rcases order_dichotomy hU hV hbU hbV hbUV with h | h
    · exact ⟨U, V, hU, h, hiff2⟩
    · exact ⟨V, U, hV, h, fun q => (hiff2 q).trans gridSet_swap⟩
  obtain ⟨U', V', hU', hUV', hiff3⟩ := hfinal
  refine ⟨c2, U', V', hU', hUV', ?_⟩
  -- the sorted grid list
  have hU'x := hU'
  have hUV'x := hUV'
  unfold lexLt at hU'x hUV'x
  simp only [Vec4.smul_x, Vec4.smul_y, Vec4.smul_z, Vec4.smul_w, Vec4.zero_x,
    Vec4.zero_y, Vec4.zero_z, Vec4.zero_w] at hU'x hUV'x
  have hchain : List.Chain' lexLt
      [c2, c2 + U', c2 + (2 : ℤ) • U', c2 + V', c2 + U' + V',
        c2 + (2 : ℤ) • U' + V', c2 + (2 : ℤ) • V', c2 + U' + (2 : ℤ) • V',
        c2 + (2 : ℤ) • U' + (2 : ℤ) • V'] := by
    refine List.chain'_cons.mpr ⟨?_, ?_⟩
    · unfold lexLt
      simp only [Vec4.add_x, Vec4.add_y, Vec4.add_z, Vec4.add_w]
      omega
    refine List.chain'_cons.mpr ⟨?_, ?_⟩
    · unfold lexLt
      simp only [Vec4.add_x, Vec4.add_y, Vec4.add_z, Vec4.add_w, Vec4.smul_x,
        Vec4.smul_y, Vec4.smul_z, Vec4.smul_w]
      omega
    refine List.chain'_cons.mpr ⟨?_, ?_⟩
    · unfold lexLt
      simp only [Vec4.add_x, Vec4.add_y, Vec4.add_z, Vec4.add_w, Vec4.smul_x,
        Vec4.smul_y, Vec4.smul_z, Vec4.smul_w]
      omega
    refine List.chain'_cons.mpr ⟨?_, ?_⟩
    · unfold lexLt
      simp only [Vec4.add_x, Vec4.add_y, Vec4.add_z, Vec4.add_w]
      omega
    refine List.chain'_cons.mpr ⟨?_, ?_⟩
    · unfold lexLt
      simp only [Vec4.add_x, Vec4.add_y, Vec4.add_z, Vec4.add_w, Vec4.smul_x,
        Vec4.smul_y, Vec4.smul_z, Vec4.smul_w]
      omega
    refine List.chain'_cons.mpr ⟨?_, ?_⟩
    · unfold lexLt
      simp only [Vec4.add_x, Vec4.add_y, Vec4.add_z, Vec4.add_w, Vec4.smul_x,
        Vec4.smul_y, Vec4.smul_z, Vec4.smul_w]
      omega
    refine List.chain'_cons.mpr ⟨?_, ?_⟩
    · unfold lexLt
      simp only [Vec4.add_x, Vec4.add_y, Vec4.add_z, Vec4.add_w, Vec4.smul_x,
        Vec4.smul_y, Vec4.smul_z, Vec4.smul_w]
      omega
    refine List.chain'_cons.mpr ⟨?_, ?_⟩
    · unfold lexLt
      simp only [Vec4.add_x, Vec4.add_y, Vec4.add_z, Vec4.add_w, Vec4.smul_x,
        Vec4.smul_y, Vec4.smul_z, Vec4.smul_w]
      omega
    simp
  have hsortL : List.Pairwise lexLt
      [c2, c2 + U', c2 + (2 : ℤ) • U', c2 + V', c2 + U' + V',
        c2 + (2 : ℤ) • U' + V', c2 + (2 : ℤ) • V', c2 + U' + (2 : ℤ) • V',
        c2 + (2 : ℤ) • U' + (2 : ℤ) • V'] :=
    List.chain'_iff_pairwise.mp hchain
  have hndL : List.Nodup
      [c2, c2 + U', c2 + (2 : ℤ) • U', c2 + V', c2 + U' + V',
        c2 + (2 : ℤ) • U' + V', c2 + (2 : ℤ) • V', c2 + U' + (2 : ℤ) • V',
        c2 + (2 : ℤ) • U' + (2 : ℤ) • V'] :=
    hsortL.imp (fun h => lexLt_ne h)
  have hmemL : ∀ q, q ∈ pts ↔ q ∈
      [c2, c2 + U', c2 + (2 : ℤ) • U', c2 + V', c2 + U' + V',
        c2 + (2 : ℤ) • U' + V', c2 + (2 : ℤ) • V', c2 + U' + (2 : ℤ) • V',
        c2 + (2 : ℤ) • U' + (2 : ℤ) • V'] := by
    intro q
    rw [hiff3 q]
    constructor
    · rintro ⟨m, n, hm0, hm2, hn0, hn2, rfl⟩
      have hm : m = 0 ∨ m = 1 ∨ m = 2 := by omega
      have hn : n = 0 ∨ n = 1 ∨ n = 2 := by omega
      simp only [List.mem_cons, List.not_mem_nil, or_false]
      rcases hm with rfl | rfl | rfl <;> rcases hn with rfl | rfl | rfl
      · exact Or.inl (by ext <;> simp)
      · exact Or.inr (Or.inr (Or.inr (Or.inl (by ext <;> simp))))
      · exact Or.inr (Or.inr (Or.inr (Or.inr (Or.inr (Or.inr (Or.inl
          (by ext <;> simp)))))))
      · exact Or.inr (Or.inl (by ext <;> simp <;> ring))
      · exact Or.inr (Or.inr (Or.inr (Or.inr (Or.inl (by ext <;> simp <;> ring)))))
      · exact Or.inr (Or.inr (Or.inr (Or.inr (Or.inr (Or.inr (Or.inr (Or.inl
          (by ext <;> simp <;> ring))))))))
      · exact Or.inr (Or.inr (Or.inl (by ext <;> simp <;> ring)))
      · exact Or.inr (Or.inr (Or.inr (Or.inr (Or.inr (Or.inl
          (by ext <;> simp <;> ring))))))
      · exact Or.inr (Or.inr (Or.inr (Or.inr (Or.inr (Or.inr (Or.inr (Or.inr
          (by ext <;> simp <;> ring))))))))
    · intro hq
      simp only [List.mem_cons, List.not_mem_nil, or_false] at hq
      rcases hq with rfl | rfl | rfl | rfl | rfl | rfl | rfl | rfl | rfl
      · exact ⟨0, 0, by omega, by omega, by omega, by omega, by ext <;> simp⟩
      · exact ⟨1, 0, by omega, by omega, by omega, by omega,
          by ext <;> simp <;> ring⟩
      · exact ⟨2, 0, by omega, by omega, by omega, by omega, by ext <;> simp⟩
      · exact ⟨0, 1, by omega, by omega, by omega, by omega,
          by ext <;> simp <;> ring⟩
      · exact ⟨1, 1, by omega, by omega, by omega, by omega,
          by ext <;> simp <;> ring⟩
      · exact ⟨2, 1, by omega, by omega, by omega, by omega,
          by ext <;> simp <;> ring⟩
      · exact ⟨0, 2, by omega, by omega, by omega, by omega, by ext <;> simp⟩
      · exact ⟨1, 2, by omega, by omega, by omega, by omega,
          by ext <;> simp <;> ring⟩
      · exact ⟨2, 2, by omega, by omega, by omega, by omega,
          by ext <;> simp <;> ring⟩
  exact List.eq_of_perm_of_sorted
    ((List.perm_ext_iff_of_nodup hnd hndL).mpr hmemL) hsort hsortL

theorem consecDiffs_grid (c U V : Vec4 ℤ) :
    consecDiffs [c, c + U, c + (2 : ℤ) • U, c + V, c + U + V,
      c + (2 : ℤ) • U + V, c + (2 : ℤ) • V, c + U + (2 : ℤ) • V,
      c + (2 : ℤ) • U + (2 : ℤ) • V] =
    [U, U, V - (2 : ℤ) • U, U, U, V - (2 : ℤ) • U, U, U] := by
  simp only [consecDiffs, List.tail_cons, List.zipWith_cons_cons,
    List.zipWith_nil_left, List.zipWith_nil_right, List.cons.injEq, and_true]
  refine ⟨?_, ?_, ?_, ?_, ?_, ?_, ?_, ?_⟩ <;> (ext <;> simp <;> ring)

/-- Necessity of the fast filter for full nine-point candidates: a sorted
in-range coplanar candidate passes it. -/
theorem coplanar_sorted_fast {s : List ℕ} (hlen : s.length = 9)
    (hs : List.Sorted (· < ·) s) (hr : ∀ i ∈ s, i < 81)
    (hcop : CoplanarPts (s.map pointAt)) :
    is_solution_subseq_fast s = true := by
  have hlen' : (s.map pointAt).length = 9 := by simp [hlen]
  have hsort : (s.map pointAt).Pairwise lexLt := by
    rw [List.pairwise_map]
    refine List.Pairwise.imp_of_mem ?_ hs
    intro a b ha hb hab
    exact pointAt_lexLt hab (hr b hb)
  have hmem : ∀ p ∈ s.map pointAt, p ∈ all_points := by
    intro p hp
    obtain ⟨i, hi, rfl⟩ := List.mem_map.mp hp
    exact pointAt_mem (hr i hi)
  obtain ⟨c, U, V, hU, hUV, heq⟩ := grid_sorted hlen' hsort hmem hcop
  rw [is_solution_subseq_fast_iff, heq, consecDiffs_grid]
  have hsub : ([U, U, V - (2 : ℤ) • U, U, U, V - (2 : ℤ) • U, U, U] :
      List (Vec4 ℤ)).toFinset ⊆ {U, V - (2 : ℤ) • U} := by
    intro x hx
    simp only [List.mem_toFinset, List.mem_cons, List.not_mem_nil,
      or_false] at hx
    simp only [Finset.mem_insert, Finset.mem_singleton]
    tauto
  calc ([U, U, V - (2 : ℤ) • U, U, U, V - (2 : ℤ) • U, U, U] :
        List (Vec4 ℤ)).toFinset.card
      ≤ ({U, V - (2 : ℤ) • U} : Finset (Vec4 ℤ)).card :=
        Finset.card_le_card hsub
    _ ≤ 2 := Finset.card_insert_le _ _ |>.trans (by simp)

/-! ### The root enumeration -/

/-- The first nine indices form the plane `x = -1, y = -1`: a concrete
accepted candidate. -/
theorem is_solution_subseq_first_nine :
    is_solution_subseq [0, 1, 2, 3, 4, 5, 6, 7, 8] = true := by
  refine (exact_iff_coplanar (by decide) (by decide)).mpr ?_
  refine ⟨toQ ⟨-1, -1, -1, -1⟩, ⟨0, 0, 1, 0⟩, ⟨0, 0, 0, 1⟩, ?_⟩
  intro p hp
  have h0 : pointAt 0 = ⟨-1, -1, -1, -1⟩ := by decide
  have h1 : pointAt 1 = ⟨-1, -1, -1, 0⟩ := by decide
  have h2 : pointAt 2 = ⟨-1, -1, -1, 1⟩ := by decide
  have h3 : pointAt 3 = ⟨-1, -1, 0, -1⟩ := by decide
  have h4 : pointAt 4 = ⟨-1, -1, 0, 0⟩ := by decide
  have h5 : pointAt 5 = ⟨-1, -1, 0, 1⟩ := by decide
  have h6 : pointAt 6 = ⟨-1, -1, 1, -1⟩ := by decide
  have h7 : pointAt 7 = ⟨-1, -1, 1, 0⟩ := by decide
  have h8 : pointAt 8 = ⟨-1, -1, 1, 1⟩ := by decide
  simp only [List.map_cons, List.map_nil, h0, h1, h2, h3, h4, h5, h6, h7, h8,
    List.mem_cons, List.not_mem_nil, or_false] at hp
  rcases hp with rfl | rfl | rfl | rfl | rfl | rfl | rfl | rfl | rfl
  · exact ⟨0, 0, by ext <;> norm_num [toQ]⟩
  · exact ⟨0, 1, by ext <;> norm_num [toQ]⟩
  · exact ⟨0, 2, by ext <;> norm_num [toQ]⟩
  · exact ⟨1, 0, by ext <;> norm_num [toQ]⟩
  · exact ⟨1, 1, by ext <;> norm_num [toQ]⟩
  · exact ⟨1, 2, by ext <;> norm_num [toQ]⟩
  · exact ⟨2, 0, by ext <;> norm_num [toQ]⟩
  · exact ⟨2, 1, by ext <;> norm_num [toQ]⟩
  · exact ⟨2, 2, by ext <;> norm_num [toQ]⟩

/-- Core refinement equivalence at the root call: the pruned search emits a
sorted in-range nine-index candidate exactly when the exact check accepts
it. -/
theorem find_planes_root_iff {s : List ℕ} (hlen : s.length = 9)
    (hs : List.Sorted (· < ·) s) (hr : ∀ i ∈ s, i < 81) :
    s ∈ (find_planes 0 [] 9).1 ↔ is_solution_subseq s = true := by
  constructor
  · intro hmem0
    obtain ⟨t, heq, -, -, -, hex⟩ := find_planes_sound 9 0 [] s hmem0
    exact hex
  · intro hex
    have hcop := (exact_iff_coplanar hs hr).mp hex
    have hfast := coplanar_sorted_fast hlen hs hr hcop
    have hres := find_planes_complete 9 0 [] s hlen
      (fun j hj => ⟨Nat.zero_le j, hr j hj⟩) hs
      (fun m _ => by simpa using is_solution_subseq_fast_take m hfast)
      (by simpa using hex)
    simpa using hres

/-- Totality and failure of Python list indexing on the point table, for
arbitrary integer indices. -/
theorem pythonGet_range (i : ℤ) :
    ((0 ≤ i ∧ i ≤ 80) → ∃ p, pythonGet all_points i = some p) ∧
      (pythonGet all_points i = none ↔ (80 < i ∨ i < -81)) := by
  have hlen : all_points.length = 81 := all_points_length
  unfold pythonGet
  by_cases hi : i < 0
  · simp only [if_pos hi]
    by_cases h2 : 0 ≤ i + (all_points.length : ℤ) ∧
        i + (all_points.length : ℤ) < (all_points.length : ℤ)
    · rw [if_pos h2]
      rw [hlen] at h2
      have hb : (i + (all_points.length : ℤ)).toNat < all_points.length := by
        rw [hlen]
        omega
      rw [List.get?_eq_get hb]
      constructor
      · intro _
        exact ⟨_, rfl⟩
      · simp only [reduceCtorEq, false_iff]
        push_cast at h2
        omega
    · rw [if_neg h2]
      rw [hlen] at h2
      push_cast at h2
      constructor
      · intro hle
        omega
      · simp only [true_iff]
        omega
  · simp only [if_neg hi]
    by_cases h2 : 0 ≤ i ∧ i < (all_points.length : ℤ)
    · rw [if_pos h2]
      rw [hlen] at h2
      have hb : i.toNat < all_points.length := by
        rw [hlen]
        omega
      rw [List.get?_eq_get hb]
      constructor
      · intro _
        exact ⟨_, rfl⟩
      · simp only [reduceCtorEq, false_iff]
        push_cast at h2
        omega
    · rw [if_neg h2]
      rw [hlen] at h2
      push_cast at h2
      constructor
      · intro hle
        omega
      · simp only [true_iff]
        omega

/-! ### Claim theorems -/

/-- C1: for every strictly increasing 9-element index sequence over
`[0, 80]`, the pruned backtracking enumeration `find_planes` (root call
`start_idx = 0`, `base = []`, `remaining = 9`) produces the sequence if and
only if `is_solution_subseq` accepts it — the search equals, as a set of
outputs, the brute-force enumeration that applies the exact check to every
strictly increasing 9-combination, so the fast-filter pruning never
excludes a candidate the exact check would pass. -/
theorem fastfilter_refinement {s : List ℕ} (hlen : s.length = 9)
    (hs : List.Sorted (· < ·) s) (hr : ∀ i ∈ s, i ≤ 80) :
    s ∈ (find_planes 0 [] 9).1 ↔ is_solution_subseq s = true :=
  find_planes_root_iff hlen hs (fun i hi => by have := hr i hi; omega)

theorem fastfilter_refinement_witness :
    [0, 1, 2, 3, 4, 5, 6, 7, 8] ∈ (find_planes 0 [] 9).1 ↔
      is_solution_subseq [0, 1, 2, 3, 4, 5, 6, 7, 8] = true :=
  fastfilter_refinement (by decide) (by decide) (by decide)

/-- C2: on every candidate of strictly increasing in-range point indices,
`is_solution_subseq` returns `true` exactly when the corresponding points
are affinely coplanar — they lie in a common affine subspace of dimension
at most 2 of 4-space. -/
theorem exactcheck_decides_coplanarity {s : List ℕ}
    (hs : List.Sorted (· < ·) s) (hr : ∀ i ∈ s, i ≤ 80) :
    (is_solution_subseq s = true ↔ CoplanarPts (s.map pointAt)) :=
  exact_iff_coplanar hs (fun i hi => by have := hr i hi; omega)

theorem exactcheck_decides_coplanarity_witness :
    (is_solution_subseq [0, 1, 2, 3, 4, 5, 6, 7, 8] = true ↔
      CoplanarPts ([0, 1, 2, 3, 4, 5, 6, 7, 8].map pointAt)) :=
  exactcheck_decides_coplanarity (by decide) (by decide)

/-- C3: the fast filter is monotone under extension: once it returns
`false` on a candidate, it returns `false` on every single-index
extension, so a pruned subtree can never contain a passing candidate. -/
theorem fastfilter_monotone (c : List ℕ) (i : ℕ)
    (h : is_solution_subseq_fast c = false) :
    is_solution_subseq_fast (c ++ [i]) = false :=
  is_solution_subseq_fast_extend_false i h

theorem fastfilter_monotone_witness :
    is_solution_subseq_fast ([0, 1, 3, 9] ++ [20]) = false :=
  fastfilter_monotone [0, 1, 3, 9] 20 (by decide)

/-- C4: no division by zero occurs inside the exact check on a sorted
in-range candidate: whenever the divisions are reached (a second basis
vector was selected), both `basis1·basis1` and the orthogonalised
`basis2·basis2` are strictly positive. -/
theorem exactcheck_no_division_by_zero {i0 i1 : ℕ} {l : List ℕ}
    {b2 : Vec4 ℤ} (hs : List.Sorted (· < ·) (i0 :: i1 :: l))
    (hr : ∀ i ∈ i0 :: i1 :: l, i ≤ 80)
    (hfind : findBasis2 (pointAt i1 - pointAt i0)
        (l.map fun i => pointAt i - pointAt i0) = some b2) :
    0 < dot (pointAt i1 - pointAt i0) (pointAt i1 - pointAt i0) ∧
      0 < dot (orthAgainst (toQ (pointAt i1 - pointAt i0)) (toQ b2))
        (orthAgainst (toQ (pointAt i1 - pointAt i0)) (toQ b2)) :=
  divisions_pos hs (fun i hi => by have := hr i hi; omega) hfind

theorem exactcheck_no_division_by_zero_witness :
    0 < dot (pointAt 1 - pointAt 0) (pointAt 1 - pointAt 0) ∧
      0 < dot (orthAgainst (toQ (pointAt 1 - pointAt 0)) (toQ ⟨0, 0, 1, 0⟩))
        (orthAgainst (toQ (pointAt 1 - pointAt 0)) (toQ ⟨0, 0, 1, 0⟩)) :=
  @exactcheck_no_division_by_zero 0 1 [3] ⟨0, 0, 1, 0⟩
    (by decide) (by decide) (by decide)

/-- C5: the fast filter returns `true` exactly when the set of distinct
difference vectors between consecutive points of the candidate has at most
two elements; in particular a candidate of length 0 or 1 has no difference
vectors and passes trivially. -/
theorem fastfilter_spec (pt_idxs : List ℕ) :
    (is_solution_subseq_fast pt_idxs = true ↔
      (consecDiffs (pt_idxs.map pointAt)).toFinset.card ≤ 2) ∧
      (pt_idxs.length ≤ 1 → is_solution_subseq_fast pt_idxs = true) :=
  ⟨is_solution_subseq_fast_iff pt_idxs,
    fun h => is_solution_subseq_fast_short (by omega)⟩

theorem fastfilter_spec_witness : is_solution_subseq_fast [42] = true :=
  (fastfilter_spec [42]).2 (by decide)

/-- C6: the root enumeration emits its planes in strictly increasing
index-lexicographic order — in particular no two emitted planes have the
same index sequence — and every emitted index sequence is strictly
increasing with all indices in `[0, 80]`. -/
theorem enumeration_sorted_nodup :
    ((find_planes 0 [] 9).1.Pairwise fun l1 l2 =>
      l1 ≠ l2 ∧ List.Lex (· < ·) l1 l2) ∧
      ∀ l ∈ (find_planes 0 [] 9).1,
        List.Sorted (· < ·) l ∧ ∀ i ∈ l, i ≤ 80 := by
  constructor
  · exact (find_planes_pairwise_lex 9 0 []).imp
      (fun h => ⟨lex_ne_of_lex h, h⟩)
  · intro l hl
    obtain ⟨t, heq, -, hb, hsorted, -⟩ := find_planes_sound 9 0 [] l hl
    simp only [List.nil_append] at heq
    subst heq
    exact ⟨hsorted, fun i hi => by have := (hb i hi).2; omega⟩

theorem enumeration_sorted_nodup_witness :
    List.Sorted (· < ·) [0, 1, 2, 3, 4, 5, 6, 7, 8] ∧
      ∀ i ∈ [0, 1, 2, 3, 4, 5, 6, 7, 8], i ≤ 80 := by
  have hmem : [0, 1, 2, 3, 4, 5, 6, 7, 8] ∈ (find_planes 0 [] 9).1 :=
    (find_planes_root_iff (by decide) (by decide) (by decide)).mpr
      is_solution_subseq_first_nine
  exact enumeration_sorted_nodup.2 _ hmem

/-- C7: the point lattice has exactly 81 points, each with every component
in `{-1, 0, 1}`; every element of `{-1,0,1}⁴` appears exactly once; the
list is sorted in strict lexicographic order; and index-to-point is a
bijection: `indexOf (pointAt i) = i` for all `i < 81`. -/
theorem lattice_structure :
    all_points.length = 81 ∧
      (∀ p ∈ all_points, (p.x = -1 ∨ p.x = 0 ∨ p.x = 1) ∧
        (p.y = -1 ∨ p.y = 0 ∨ p.y = 1) ∧ (p.z = -1 ∨ p.z = 0 ∨ p.z = 1) ∧
        (p.w = -1 ∨ p.w = 0 ∨ p.w = 1)) ∧
      (∀ a ∈ ([-1, 0, 1] : List ℤ), ∀ b ∈ ([-1, 0, 1] : List ℤ),
        ∀ c ∈ ([-1, 0, 1] : List ℤ), ∀ d ∈ ([-1, 0, 1] : List ℤ),
        all_points.count (⟨a, b, c, d⟩ : Vec4 ℤ) = 1) ∧
      all_points.Pairwise lexLt ∧
      (∀ i : ℕ, i < 81 → all_points.indexOf (pointAt i) = i) := by
  refine ⟨all_points_length, by decide, by decide, all_points_pairwise, ?_⟩
  have h : ∀ i : Fin 81, all_points.indexOf (all_points.getD i 0) = i := by
    decide
  intro i hi
  exact h ⟨i, hi⟩

theorem lattice_structure_witness : all_points.indexOf (pointAt 5) = 5 :=
  lattice_structure.2.2.2.2 5 (by decide)

/-- C8 (amended): looking up a point by integer index succeeds for every
index in `[0, 80]`; a negative index in `[-81, -1]` also succeeds by
Python's wrap-around indexing; the lookup fails (raises `IndexError`)
exactly for indices above 80 or below -81. -/
theorem pointAt_python_semantics (i : ℤ) :
    ((0 ≤ i ∧ i ≤ 80) → ∃ p, pythonGet all_points i = some p) ∧
      (pythonGet all_points i = none ↔ (80 < i ∨ i < -81)) :=
  pythonGet_range i

theorem pointAt_python_semantics_witness :
    ∃ p, pythonGet all_points 0 = some p :=
  (pointAt_python_semantics 0).1 (by decide)

/-- C8 (counterexample): the lookup does not fail on every negative index,
contrary to the claim — Python wraps `all_points[-1]` around to the last
point. -/
theorem pointAt_negative_index_wraps :
    pythonGet all_points (-1) = some ⟨1, 1, 1, 1⟩ := by decide

/-- C9 (amended): the enumerator's only side effect beyond emitting results
is the progress indicator: every call prints exactly one dot per plane it
produces. -/
theorem find_planes_progress_output (start : ℕ) (base : List ℕ) (r : ℕ) :
    (find_planes start base r).2 =
      List.replicate (find_planes start base r).1.length '.' :=
  find_planes_snd_eq r start base

/-- C9 (counterexample): the core enumeration itself does produce output —
at the full-depth call that accepts the first nine indices it prints a
progress dot. -/
theorem find_planes_prints_dot :
    (find_planes 9 [0, 1, 2, 3, 4, 5, 6, 7, 8] 0).2 ≠ ([] : List Char) := by
  simp [find_planes, is_solution_subseq_first_nine]

/-- C10: candidates of length at most 3 always pass the fast filter (at
most two consecutive differences exist), so the search never prunes at
depths 0 through 3; and depth 4 is the first at which a subtree can be
abandoned, witnessed by a pruned length-4 candidate. -/
theorem fastfilter_short_candidates :
    (∀ c : List ℕ, c.length ≤ 3 → is_solution_subseq_fast c = true) ∧
      ∃ c : List ℕ, c.length = 4 ∧ is_solution_subseq_fast c = false :=
  ⟨fun _ hc => is_solution_subseq_fast_short hc,
    ⟨[0, 1, 3, 9], by decide, by decide⟩⟩

theorem fastfilter_short_candidates_witness :
    is_solution_subseq_fast [0, 1, 2] = true :=
  fastfilter_short_candidates.1 [0, 1, 2] (by decide)
